import Mathlib

/-!
Verification development for the seanode model-data retrieval core.

The definitions below are shallow embeddings of the catalog/temporal
resolution engine, the geometry-specific subsetting helpers, the result
merger, and the filename rendering of the seanode package.  Datetimes are
modelled as integer minutes on an absolute timeline (one day = 1440
minutes, so a Python `datetime.date()` corresponds to flooring division by
1440), floating point data values and coordinates are modelled as rational
numbers, and Python exceptions / `sys.exit` calls are modelled with
`Except String`.
-/

namespace Seanode

/-! ## Inverse distance weighting kernel (`analysis_task_mesh.calc_inv_dist_wts`) -/

/-- One row (one station) of `calc_inv_dist_wts` from
`seanode/analysis_task_mesh.py`.  The numpy expression
`where(dists == 0, 1.0, (~any(dists == 0, axis=1)) / dists ** exponent)`
is evaluated per row: entries at distance zero become `1.0`, all other
entries become `(1 - anyZero) / d ^ exponent`; the row is then divided by
its sum. -/
def calc_inv_dist_wts (distances : List ℚ) (exponent : ℕ) : List ℚ :=
  let anyZero := distances.any (fun d => d == 0)
  let wts := distances.map (fun d =>
    if d = 0 then 1 else (if anyZero then 0 else 1) / d ^ exponent)
  wts.map (fun w => w / wts.sum)

/-- Sum of the zero-indicator image of a list counts the zero entries. -/
lemma sum_map_indicator_eq_count (ds : List ℚ) :
    (ds.map (fun d => if d = 0 then (1 : ℚ) else 0)).sum = ds.count 0 := by
  induction ds with
  | nil => simp
  | cons d tl ih =>
      by_cases h : d = 0 <;>
        simp [h, ih, List.count_cons, eq_comm, add_comm]

/-- Dividing each element of a list by a constant divides the sum. -/
lemma sum_map_div (l : List ℚ) (c : ℚ) :
    (l.map (fun x => x / c)).sum = l.sum / c := by
  induction l with
  | nil => simp
  | cons x tl ih => simp [ih, add_div]

/-- If some distance is zero, the weights are the uniform distribution over
the zero-distance entries (`1/m` at each of the `m` zeros, `0` elsewhere),
for every exponent. -/
lemma calc_inv_dist_wts_of_count_ne_zero (ds : List ℚ) (p : ℕ)
    (hz : ds.count 0 ≠ 0) :
    calc_inv_dist_wts ds p
      = ds.map (fun d => if d = 0 then ((ds.count 0 : ℚ))⁻¹ else 0) := by
  have hmem : (0 : ℚ) ∈ ds := by
    by_contra h
    exact hz (List.count_eq_zero.mpr h)
  have hany : ds.any (fun d => d == 0) = true := by
    simp only [List.any_eq_true]
    exact ⟨0, hmem, by simp⟩
  have hwts : ds.map (fun d =>
      if d = 0 then (1 : ℚ) else (if ds.any (fun d => d == 0) then 0 else 1) / d ^ p)
      = ds.map (fun d => if d = 0 then (1 : ℚ) else 0) := by
    simp [hany]
  unfold calc_inv_dist_wts
  simp only [hwts, sum_map_indicator_eq_count, List.map_map]
  refine List.map_congr_left (fun d _ => ?_)
  by_cases h : d = 0 <;> simp [h, one_div]

/-- Specification of the inverse-distance weight kernel, stated per
station row.  (1) When `m ≥ 1` of the distances are exactly zero, the
weight vector is `1/m` at each zero and `0` elsewhere — in particular
one-hot when the zero entry is unique — regardless of the exponent.
(2) When the unique zero is at position `pre.length`, the weights are
exactly one-hot at that position.  (3) When no distance is zero, each
weight is `(1/d^p)` normalized by the row sum, and the weights sum to 1. -/
theorem calc_inv_dist_wts_correct (ds : List ℚ) (p : ℕ)
    (hp : 0 < p) (hne : ds ≠ []) :
    (ds.count 0 ≠ 0 →
        calc_inv_dist_wts ds p
          = ds.map (fun d => if d = 0 then ((ds.count 0 : ℚ))⁻¹ else 0))
    ∧ (∀ pre post, ds = pre ++ 0 :: post →
        (∀ d ∈ pre, d ≠ 0) → (∀ d ∈ post, d ≠ 0) →
        calc_inv_dist_wts ds p
          = List.replicate pre.length 0 ++ 1 :: List.replicate post.length 0)
    ∧ ((∀ d ∈ ds, 0 < d) →
        calc_inv_dist_wts ds p
          = ds.map (fun d =>
              (1 / d ^ p) / (ds.map (fun d => 1 / d ^ p)).sum)
        ∧ (calc_inv_dist_wts ds p).sum = 1) := by
  have hrep : ∀ (l : List ℚ), (∀ d ∈ l, d ≠ 0) →
      l.map (fun d => if d = 0 then ((1 : ℚ))⁻¹ else 0)
        = List.replicate l.length 0 := by
    intro l hl
    refine List.eq_replicate_iff.mpr ⟨by simp, ?_⟩
    intro b hb
    rcases List.mem_map.mp hb with ⟨d, hd, hbd⟩
    simp [hl d hd] at hbd
    exact hbd.symm
  refine ⟨calc_inv_dist_wts_of_count_ne_zero ds p, ?_, ?_⟩
  · intro pre post hsplit hpre hpost
    have hcount : ds.count 0 = 1 := by
      subst hsplit
      simp [List.count_append, List.count_cons,
        List.count_eq_zero.mpr (fun h => hpre 0 h rfl),
        List.count_eq_zero.mpr (fun h => hpost 0 h rfl)]
    have h1 := calc_inv_dist_wts_of_count_ne_zero ds p (by omega)
    rw [h1, hcount, hsplit]
    simp only [List.map_append, List.map_cons, Nat.cast_one]
    rw [hrep pre hpre, hrep post hpost]
    simp
  · intro hpos
    have hany : ds.any (fun d => d == 0) = false := by
      simp only [List.any_eq_false]
      intro d hd
      simp [ne_of_gt (hpos d hd)]
    have hwts : ds.map (fun d =>
        if d = 0 then (1 : ℚ) else (if ds.any (fun d => d == 0) then 0 else 1) / d ^ p)
        = ds.map (fun d => 1 / d ^ p) := by
      refine List.map_congr_left (fun d hd => ?_)
      simp [ne_of_gt (hpos d hd), hany]
    have hSpos : 0 < (ds.map (fun d => 1 / d ^ p)).sum := by
      apply List.sum_pos
      · intro x hx
        rcases List.mem_map.mp hx with ⟨d, hd, hxd⟩
        exact hxd ▸ div_pos one_pos (pow_pos (hpos d hd) p)
      · simpa using hne
    constructor
    · unfold calc_inv_dist_wts
      simp only [hwts, List.map_map]
      rfl
    · unfold calc_inv_dist_wts
      simp only [hwts]
      rw [sum_map_div, div_self (ne_of_gt hSpos)]

/-- Counterexample to the C1 claim as stated: with two coincident points,
distances `[0, 0, 1]`, the weight is split `1/2, 1/2` between the two zero
entries; it is not one-hot at either zero index. -/
theorem calc_inv_dist_wts_two_zeros_not_one_hot :
    calc_inv_dist_wts [0, 0, 1] 1 = [1/2, 1/2, 0]
    ∧ calc_inv_dist_wts [0, 0, 1] 1 ≠ [1, 0, 0]
    ∧ calc_inv_dist_wts [0, 0, 1] 1 ≠ [0, 1, 0] := by
  have h : calc_inv_dist_wts [0, 0, 1] 1 = [1/2, 1/2, 0] := by
    norm_num [calc_inv_dist_wts]
  refine ⟨h, by rw [h]; intro hc; simp at hc, by rw [h]; intro hc; simp at hc⟩

/-- Concrete instance of `calc_inv_dist_wts_correct`: distances `[0, 2, 3]`
give exactly the one-hot weights `[1, 0, 0]`. -/
theorem calc_inv_dist_wts_correct_witness :
    calc_inv_dist_wts [0, 2, 3] 1 = [1, 0, 0] := by
  have h := (calc_inv_dist_wts_correct [0, 2, 3] 1 (by decide) (by decide)).2.1
    [] [2, 3] rfl (by decide) (by decide)
  simpa using h

/-! ## Data model: field sources and the per-model catalog

Python datetimes are modelled as minutes on an absolute integer timeline.
The `FieldSource` dataclass is dynamically typed in Python, and the GFS
catalog in `seanode/models/gfs.py` actually stores values of the wrong
kinds in some fields, so each field holds a `PyVal` — a tagged Python
value — rather than a fixed-type value. -/

/-- `seanode.request_options.FileGeometry`. -/
inductive FileGeometry where
  | POINTS
  | MESH
  | GRID
deriving DecidableEq, Repr

/-- The f-string rendering of a `FileGeometry` member, as produced by
Python inside the `get_field_source` error messages. -/
def FileGeometry.pyStr : FileGeometry → String
  | .POINTS => "FileGeometry.POINTS"
  | .MESH => "FileGeometry.MESH"
  | .GRID => "FileGeometry.GRID"

/-- One entry of a `FieldSource.variables` list:
`{'varname_out': ..., 'varname_file': ..., 'datum': ...}`. -/
structure VarDict where
  varname_out : String
  varname_file : String
  datum : Option String
deriving DecidableEq, Repr

/-- A dynamically-typed Python value as stored in a `FieldSource` field:
a string, a list of variable dictionaries, a coordinate-name dictionary,
or a `FileGeometry` member. -/
inductive PyVal where
  | str (s : String)
  | vlist (l : List VarDict)
  | cdict (d : List (String × String))
  | geom (g : FileGeometry)
deriving DecidableEq, Repr

/-- `seanode.field_source.FieldSource` — the frozen dataclass with fields
in declaration order `filename_template, variables, coords,
file_geometry, file_format`.  Positional construction binds arguments in
exactly this order. -/
structure FieldSource where
  filename_template : PyVal
  variables' : PyVal
  coords : PyVal
  file_geometry : PyVal
  file_format : PyVal
deriving DecidableEq, Repr

/-- `FieldSource.get_vars`: iterate over `variables` reading each entry's
`'varname_out'`.  When `variables` is not a list of dictionaries (e.g. it
is the string `'kerchunk'`), the Python subscript `vardict['varname_out']`
raises a `TypeError`, modelled as an `Except.error`. -/
def FieldSource.get_vars (fs : FieldSource) : Except String (List String) :=
  match fs.variables' with
  | .vlist l => .ok (l.map (fun vd => vd.varname_out))
  | _ => .error "TypeError: variables entries are not dictionaries"

/-- One value of a model's `data_catalog` dict: `first_run`, optional
`last_run` (`None` encoded as `none`), and the version's field sources. -/
structure VersionEntry where
  first_run : ℤ
  last_run : Option ℤ
  field_sources : List FieldSource
deriving DecidableEq, Repr

/-- A model's `data_catalog`: version name to entry, in insertion order. -/
abbrev DataCatalog := List (String × VersionEntry)

/-- Dictionary lookup on the catalog (`self.data_catalog[version]`). -/
def catalogFind : DataCatalog → String → Option VersionEntry
  | [], _ => none
  | (v, e) :: rest, version => if v = version then some e else catalogFind rest version

/-! ## Catalog resolver: `ModelTaskCreator.get_versions_by_date` -/

/-- `ModelTaskCreator.get_versions_by_date` from
`seanode/models/model_task_creator.py`: for each catalog version, when
`last_run` is set, keep it if `start_time <= last_run` and
`end_time >= first_run`, clipped to `(max(start, first_run),
min(end, last_run))`; when `last_run` is `None`, keep it if
`end_time >= first_run`, clipped to `(max(start, first_run), end)`. -/
def get_versions_by_date (catalog : DataCatalog) (start_time end_time : ℤ) :
    List (String × ℤ × ℤ) :=
  catalog.filterMap (fun ve =>
    match ve.2.last_run with
    | some lr =>
        if start_time ≤ lr ∧ ve.2.first_run ≤ end_time then
          some (ve.1, (max start_time ve.2.first_run, min end_time lr))
        else none
    | none =>
        if ve.2.first_run ≤ end_time then
          some (ve.1, (max start_time ve.2.first_run, end_time))
        else none)

/-- Spec-side overlap test for a version validity interval, written from
the spec's words: the interval `[first_run, last_run]` (an absent
`last_run` behaving as +∞) intersects `[start, end]` iff some time `t`
lies in both. -/
def versionIntersects (start_t end_t fr : ℤ) (lr : Option ℤ) : Prop :=
  ∃ t : ℤ, start_t ≤ t ∧ t ≤ end_t ∧ fr ≤ t ∧ ∀ l, lr = some l → t ≤ l

/-- Decidable form of the overlap test used to state the refinement. -/
def versionOverlapCond (start_t end_t fr : ℤ) (lr : Option ℤ) : Bool :=
  match lr with
  | some l => decide (start_t ≤ l ∧ fr ≤ end_t)
  | none => decide (fr ≤ end_t)

/-- Spec-side clipped effective interval
`(max(start, first_run), min(end, last_run or end))`. -/
def clipVersion (start_t end_t fr : ℤ) (lr : Option ℤ) : ℤ × ℤ :=
  (max start_t fr, min end_t (lr.getD end_t))

/-- C4: `get_versions_by_date` returns exactly the catalog entries whose
validity interval intersects the query range (absent `last_run` = +∞),
each clipped to `(max(start, first_run), min(end, last_run or end))`;
the decidable selection condition coincides with set-level interval
intersection on a well-formed catalog; and a query overlapping no
version yields `[]` rather than an error. -/
theorem get_versions_by_date_correct (catalog : DataCatalog) (s e : ℤ)
    (hse : s ≤ e)
    (hwf : ∀ ve ∈ catalog, ∀ l, ve.2.last_run = some l → ve.2.first_run ≤ l) :
    (get_versions_by_date catalog s e
      = catalog.filterMap (fun ve =>
          if versionOverlapCond s e ve.2.first_run ve.2.last_run then
            some (ve.1, clipVersion s e ve.2.first_run ve.2.last_run)
          else none))
    ∧ (∀ ve ∈ catalog,
        versionOverlapCond s e ve.2.first_run ve.2.last_run = true
          ↔ versionIntersects s e ve.2.first_run ve.2.last_run)
    ∧ ((∀ ve ∈ catalog, ¬ versionIntersects s e ve.2.first_run ve.2.last_run)
        → get_versions_by_date catalog s e = []) := by
  have hcond : ∀ ve ∈ catalog,
      versionOverlapCond s e ve.2.first_run ve.2.last_run = true
        ↔ versionIntersects s e ve.2.first_run ve.2.last_run := by
    rintro ⟨nm, fr, lrOpt, fss⟩ hve
    cases lrOpt with
    | some l =>
        have hfl := hwf _ hve l rfl
        simp only [versionOverlapCond, decide_eq_true_eq, versionIntersects]
        constructor
        · rintro ⟨h1, h2⟩
          rcases le_total e l with h | h
          · exact ⟨e, hse, le_refl e, h2, fun l' hl' => by
              injection hl' with h3; omega⟩
          · exact ⟨l, h1, h, hfl, fun l' hl' => by
              injection hl' with h3; omega⟩
        · rintro ⟨t, h1, h2, h3, h4⟩
          have := h4 l rfl
          exact ⟨by omega, by omega⟩
    | none =>
        simp only [versionOverlapCond, decide_eq_true_eq, versionIntersects]
        constructor
        · intro h1
          exact ⟨max s fr, le_max_left s fr, by
            rcases le_total s fr with h | h
            · simpa [max_eq_right h] using h1
            · simpa [max_eq_left h] using hse,
            le_max_right s fr, fun l hl => by cases hl⟩
        · rintro ⟨t, h1, h2, h3, h4⟩
          omega
  have heq : get_versions_by_date catalog s e
      = catalog.filterMap (fun ve =>
          if versionOverlapCond s e ve.2.first_run ve.2.last_run then
            some (ve.1, clipVersion s e ve.2.first_run ve.2.last_run)
          else none) := by
    unfold get_versions_by_date
    congr 1
    funext ve
    cases hlr : ve.2.last_run with
    | some l => simp [versionOverlapCond, clipVersion, hlr]
    | none => simp [versionOverlapCond, clipVersion, hlr]
  refine ⟨heq, hcond, ?_⟩
  intro hnone
  rw [heq]
  apply List.filterMap_eq_nil_iff.mpr
  intro ve hve
  have hfalse : ¬ versionOverlapCond s e ve.2.first_run ve.2.last_run = true :=
    fun hc => hnone ve hve ((hcond ve hve).mp hc)
  simp only [Bool.not_eq_true] at hfalse
  simp [hfalse]

/-- Concrete instance of `get_versions_by_date_correct`: a catalog with two
adjoining version intervals, a query spanning the boundary, both versions
returned with correctly clipped effective intervals. -/
theorem get_versions_by_date_correct_witness :
    get_versions_by_date
      [("v1", ⟨0, some 100, []⟩), ("v2", ⟨100, none, []⟩)] 50 150
      = [("v1", (50, 100)), ("v2", (100, 150))] := by
  have h := (get_versions_by_date_correct
    [("v1", ⟨0, some 100, []⟩), ("v2", ⟨100, none, []⟩)] 50 150
    (by norm_num)
    (by
      rintro ve hve l hl
      simp only [List.mem_cons, List.not_mem_nil, or_false] at hve
      rcases hve with rfl | rfl
      · injection hl with h2
        show (0 : ℤ) ≤ l
        omega
      · cases hl)).1
  rw [h]
  rfl

/-! ## Catalog resolver: `ModelTaskCreator.get_field_source` -/

/-- The `sys.exit` message for an unmatched variable. -/
def noFieldSourceMsg (var : String) (geometry : FileGeometry) : String :=
  "warning: no FieldSource available for variable " ++ var ++ " in "
    ++ geometry.pyStr ++ " files."

/-- The `sys.exit` message for an ambiguous variable. -/
def multiFieldSourceMsg (var : String) (geometry : FileGeometry) : String :=
  "warning: more than one FieldSource available for variable " ++ var
    ++ " in " ++ geometry.pyStr ++ " files."

/-- Reduction of `Except` bind on a success value. -/
lemma except_ok_bind {α β : Type} (a : α) (f : α → Except String β) :
    (Except.ok a : Except String α) >>= f = f a := rfl

/-- The loop body of `get_field_source`: append `fs` to the accumulator
when its geometry matches and `var` is among its output variables,
propagating any `TypeError` raised by `get_vars`. -/
def fieldSourceStep (var : String) (geometry : FileGeometry)
    (acc : List FieldSource) (fs : FieldSource) :
    Except String (List FieldSource) :=
  if fs.file_geometry = PyVal.geom geometry then do
    let vs ← fs.get_vars
    if var ∈ vs then pure (acc ++ [fs]) else pure acc
  else pure acc

/-- `ModelTaskCreator.get_field_source`: collect the version's field
sources whose `file_geometry` equals the requested geometry and whose
output variables contain `var` (the membership test calls `get_vars`,
which can itself raise); then `sys.exit` when more than one or zero
matched, and return the singleton list otherwise. -/
def get_field_source (catalog : DataCatalog) (version var : String)
    (geometry : FileGeometry) : Except String (List FieldSource) :=
  match catalogFind catalog version with
  | none => .error ("KeyError: " ++ version)
  | some entry => do
      let result ← entry.field_sources.foldlM (fieldSourceStep var geometry) []
      if result.length > 1 then .error (multiFieldSourceMsg var geometry)
      else if result.length = 0 then .error (noFieldSourceMsg var geometry)
      else .ok result

/-- Spec-side predicate: a field source declares the requested geometry
and lists `var` among its output variable names. -/
def matchesVarGeom (fs : FieldSource) (var : String)
    (geometry : FileGeometry) : Bool :=
  decide (fs.file_geometry = PyVal.geom geometry)
    && (match fs.variables' with
        | .vlist l => decide (var ∈ l.map (fun vd => vd.varname_out))
        | _ => false)

/-- On a well-formed field source, one selection step appends the source
exactly when it matches the variable and geometry. -/
lemma fieldSourceStep_eq (var : String) (geometry : FileGeometry)
    (acc : List FieldSource) (fs : FieldSource) (l : List VarDict)
    (hl : fs.variables' = PyVal.vlist l) :
    fieldSourceStep var geometry acc fs
      = .ok (acc ++ if matchesVarGeom fs var geometry then [fs] else []) := by
  unfold fieldSourceStep FieldSource.get_vars matchesVarGeom
  by_cases hg : fs.file_geometry = PyVal.geom geometry
  · rw [hl]
    by_cases hv : var ∈ l.map (fun vd => vd.varname_out)
    · simp [hg, hv, except_ok_bind]
      rfl
    · simp [hg, hv, except_ok_bind]
      rfl
  · simp [hg]
    rfl

/-- On field sources whose `variables` really is a list of variable
dictionaries, the selection fold of `get_field_source` never raises and
returns the matching sources appended in catalog order. -/
lemma get_field_source_fold_ok (var : String) (geometry : FileGeometry) :
    ∀ (fss : List FieldSource) (acc : List FieldSource),
      (∀ fs ∈ fss, ∃ l, fs.variables' = PyVal.vlist l) →
      (fss.foldlM (fieldSourceStep var geometry) acc : Except String (List FieldSource))
        = .ok (acc ++ fss.filter (fun fs => matchesVarGeom fs var geometry)) := by
  intro fss
  induction fss with
  | nil => intro acc _; simp [List.foldlM]; rfl
  | cons fs tl ih =>
      intro acc hwf
      obtain ⟨l, hl⟩ := hwf fs (List.mem_cons_self fs tl)
      have htl : ∀ fs ∈ tl, ∃ l, fs.variables' = PyVal.vlist l :=
        fun fs' h => hwf fs' (List.mem_cons_of_mem fs h)
      rw [List.foldlM_cons, fieldSourceStep_eq var geometry acc fs l hl,
        except_ok_bind, ih _ htl, List.filter_cons]
      by_cases hm : matchesVarGeom fs var geometry
      · simp [hm]
      · simp [hm]

/-- C6: on a version whose field sources are well-formed, the lookup
returns `[fs]` when exactly one field source `fs` declares the geometry
and contains the variable, and exits fatally with a message naming the
variable and the geometry when zero or more than one match. -/
theorem get_field_source_correct (catalog : DataCatalog)
    (version var : String) (geometry : FileGeometry) (entry : VersionEntry)
    (hfind : catalogFind catalog version = some entry)
    (hwfv : ∀ fs ∈ entry.field_sources, ∃ l, fs.variables' = PyVal.vlist l) :
    (∀ fs, entry.field_sources.filter
        (fun fs => matchesVarGeom fs var geometry) = [fs] →
      get_field_source catalog version var geometry = .ok [fs])
    ∧ (entry.field_sources.filter
        (fun fs => matchesVarGeom fs var geometry) = [] →
      get_field_source catalog version var geometry
        = .error (noFieldSourceMsg var geometry))
    ∧ (2 ≤ (entry.field_sources.filter
        (fun fs => matchesVarGeom fs var geometry)).length →
      get_field_source catalog version var geometry
        = .error (multiFieldSourceMsg var geometry)) := by
  have hfold := get_field_source_fold_ok var geometry entry.field_sources [] hwfv
  refine ⟨?_, ?_, ?_⟩
  · intro fs hone
    unfold get_field_source
    rw [hfind]
    simp only [hfold, List.nil_append, except_ok_bind, hone]
    rfl
  · intro hzero
    unfold get_field_source
    rw [hfind]
    simp only [hfold, List.nil_append, except_ok_bind, hzero]
    rfl
  · intro hmulti
    unfold get_field_source
    rw [hfind]
    simp only [hfold, List.nil_append, except_ok_bind]
    have h1 : (entry.field_sources.filter
        (fun fs => matchesVarGeom fs var geometry)).length > 1 := by omega
    rw [if_pos h1]

/-- Concrete instance of `get_field_source_correct`: a catalog whose only
version has a single well-formed points source declaring `cwl`; looking up
`cwl` in POINTS files returns exactly that source. -/
theorem get_field_source_correct_witness :
    get_field_source
      [("v1", ⟨0, none,
        [⟨PyVal.str "f.nc", PyVal.vlist [⟨"cwl", "zeta", some "MSL"⟩],
          PyVal.cdict [], PyVal.geom FileGeometry.POINTS, PyVal.str "nc"⟩]⟩)]
      "v1" "cwl" FileGeometry.POINTS
      = Except.ok
        [⟨PyVal.str "f.nc", PyVal.vlist [⟨"cwl", "zeta", some "MSL"⟩],
          PyVal.cdict [], PyVal.geom FileGeometry.POINTS, PyVal.str "nc"⟩] := by
  have h := (get_field_source_correct
      [("v1", ⟨0, none,
        [⟨PyVal.str "f.nc", PyVal.vlist [⟨"cwl", "zeta", some "MSL"⟩],
          PyVal.cdict [], PyVal.geom FileGeometry.POINTS, PyVal.str "nc"⟩]⟩)]
      "v1" "cwl" FileGeometry.POINTS
      ⟨0, none,
        [⟨PyVal.str "f.nc", PyVal.vlist [⟨"cwl", "zeta", some "MSL"⟩],
          PyVal.cdict [], PyVal.geom FileGeometry.POINTS, PyVal.str "nc"⟩]⟩
      rfl
      (by
        intro fs hfs
        rcases List.mem_singleton.mp hfs with rfl
        exact ⟨_, rfl⟩)).1
    ⟨PyVal.str "f.nc", PyVal.vlist [⟨"cwl", "zeta", some "MSL"⟩],
      PyVal.cdict [], PyVal.geom FileGeometry.POINTS, PyVal.str "nc"⟩
    (by decide)
  exact h

/-! ## The GFS catalog (`seanode/models/gfs.py`) -/

/-- Days since 1970-01-01 of a civil date (proleptic Gregorian), used to
place catalog datetimes on the absolute minute timeline. -/
def daysFromCivil (y m d : ℤ) : ℤ :=
  let yy := if m ≤ 2 then y - 1 else y
  let era := yy.fdiv 400
  let yoe := yy - era * 400
  let mp := (m + 9).emod 12
  let doy := (153 * mp + 2).fdiv 5 + d - 1
  let doe := yoe * 365 + yoe.fdiv 4 - yoe.fdiv 100 + doy
  era * 146097 + doe - 719468

/-- A `datetime.datetime(y, m, d, h, mi)` as minutes on the timeline. -/
def dtMinutes (y m d h mi : ℤ) : ℤ :=
  daysFromCivil y m d * 1440 + h * 60 + mi

/-- The single `FieldSource` of the GFS data catalog, constructed with the
positional arguments of `GFSTaskCreator.data_catalog` in
`seanode/models/gfs.py`: `FieldSource('sfluxgrb', 'kerchunk',
FileGeometry.GRID, [/variable dicts/], {/coords dict/})`.  Binding these
positionally to the dataclass field order puts `'sfluxgrb'` in
`filename_template`, `'kerchunk'` in `variables`, the geometry tag in
`coords`, the variable-dict list in `file_geometry`, and the coords dict
in `file_format`. -/
def gfs_field_source : FieldSource :=
  ⟨PyVal.str "sfluxgrb",
   PyVal.str "kerchunk",
   PyVal.geom FileGeometry.GRID,
   PyVal.vlist [⟨"ps", "sp", none⟩, ⟨"u10", "u10", none⟩, ⟨"v10", "v10", none⟩],
   PyVal.cdict [("time", "valid_time"), ("init_time", "time"),
                ("latitude", "latitude"), ("longitude", "longitude")]⟩

/-- `GFSTaskCreator.data_catalog`: one version `v1` starting at
2021-03-22 12:00 with open-ended `last_run`. -/
def gfs_data_catalog : DataCatalog :=
  [("v1", ⟨dtMinutes 2021 3 22 12 0, none, [gfs_field_source]⟩)]

/-- C10: the GFS field source is constructed with its arguments bound to
the wrong dataclass fields, its `get_vars` raises a `TypeError` instead of
yielding `ps`, `u10`, `v10`, and consequently `get_field_source` exits
with the "no FieldSource" error for every requested variable and
geometry — no GFS variable request can ever produce tasks. -/
theorem gfs_get_field_source_always_fails (var : String)
    (geometry : FileGeometry) :
    get_field_source gfs_data_catalog "v1" var geometry
      = Except.error (noFieldSourceMsg var geometry)
    ∧ gfs_field_source.get_vars
      = Except.error "TypeError: variables entries are not dictionaries"
    ∧ gfs_field_source.filename_template = PyVal.str "sfluxgrb"
    ∧ gfs_field_source.variables' = PyVal.str "kerchunk"
    ∧ gfs_field_source.coords = PyVal.geom FileGeometry.GRID := by
  refine ⟨?_, rfl, rfl, rfl, rfl⟩
  have hstep : fieldSourceStep var geometry [] gfs_field_source
      = Except.ok [] := by
    unfold fieldSourceStep gfs_field_source
    rw [if_neg (fun h => PyVal.noConfusion h)]
    rfl
  unfold get_field_source
  rw [show catalogFind gfs_data_catalog "v1"
    = some ⟨dtMinutes 2021 3 22 12 0, none, [gfs_field_source]⟩ from rfl]
  simp only [List.foldlM_cons, hstep, except_ok_bind, List.foldlM_nil]
  rfl

/-! ## Filename rendering (`FieldSource.get_filename`)

Python's `str.format` is modelled by a character-level scanner restricted
to the plain `{name}` / `{name:spec}` placeholders used by the repository's
templates (the `'{{'` escape and format-spec application are not used by
any template in the catalog).  A placeholder whose key is absent from the
combined namespace raises a `KeyError` naming that key. -/

/-- The `{` character. -/
def lbrace : Char := Char.ofNat 123

/-- The `}` character. -/
def rbrace : Char := Char.ofNat 125

/-- A parsed piece of a format template: a literal character or a
placeholder with its raw key text. -/
inductive TplSeg where
  | lit (c : Char)
  | hole (key : List Char)
deriving DecidableEq, Repr

/-- Scan a format template.  The boolean is true while inside a
placeholder, whose raw key accumulates in the third argument.  Returns
`none` for an unterminated placeholder. -/
def scanTpl : List Char → Bool → List Char → Option (List TplSeg)
  | [], false, _ => some []
  | [], true, _ => none
  | c :: rest, false, key =>
      if c = lbrace then scanTpl rest true []
      else (scanTpl rest false key).map (fun segs => TplSeg.lit c :: segs)
  | c :: rest, true, key =>
      if c = rbrace then
        (scanTpl rest false []).map (fun segs => TplSeg.hole key :: segs)
      else scanTpl rest true (key ++ [c])

/-- The lookup key of a placeholder: the raw text up to any `:` format
spec, as in Python's replacement-field grammar. -/
def keyNameOf (key : List Char) : String :=
  (key.takeWhile (fun c => c ≠ ':')).asString

/-- The `KeyError` message naming a missing placeholder key. -/
def keyErrorMsg (k : String) : String := "KeyError: " ++ k

/-- Association-list lookup (first binding wins). -/
def alookup {α β : Type} [DecidableEq α] : List (α × β) → α → Option β
  | [], _ => none
  | (a, b) :: rest, x => if a = x then some b else alookup rest x

/-- Substitute the scanned segments left to right, raising `KeyError` at
the first placeholder whose key is not bound in the namespace. -/
def renderSegs : List TplSeg → List (String × String) → Except String String
  | [], _ => .ok ""
  | TplSeg.lit c :: rest, ns =>
      (renderSegs rest ns).map (fun s => c.toString ++ s)
  | TplSeg.hole key :: rest, ns =>
      match alookup ns (keyNameOf key) with
      | some v => (renderSegs rest ns).map (fun s => v ++ s)
      | none => .error (keyErrorMsg (keyNameOf key))

/-- The placeholder keys of a segment list, in template order. -/
def holeNames : List TplSeg → List String
  | [] => []
  | TplSeg.lit _ :: rest => holeNames rest
  | TplSeg.hole key :: rest => keyNameOf key :: holeNames rest

/-- `str.format` on a template string with a namespace of string values. -/
def formatTpl (tpl : String) (ns : List (String × String)) :
    Except String String :=
  match scanTpl tpl.toList false [] with
  | none => .error "ValueError: unterminated placeholder in format string"
  | some segs => renderSegs segs ns

/-- The placeholder keys of a template string. -/
def tplPlaceholders (tpl : String) : List String :=
  match scanTpl tpl.toList false [] with
  | none => []
  | some segs => holeNames segs

/-- Zero-pad a number to two digits (`strftime('%H')`, month, day). -/
def pad2 (n : ℕ) : String :=
  if n < 10 then "0" ++ toString n else toString n

/-- Zero-pad a number to four digits (`strftime('%Y')`). -/
def pad4 (n : ℕ) : String :=
  if n < 10 then "000" ++ toString n
  else if n < 100 then "00" ++ toString n
  else if n < 1000 then "0" ++ toString n
  else toString n

/-- A wall-clock `datetime.datetime` value. -/
structure PyDatetime where
  year : ℕ
  month : ℕ
  day : ℕ
  hour : ℕ
  minute : ℕ
deriving DecidableEq, Repr

/-- The `{'yyyymmdd': ..., 'hh': ...}` dict built by `get_filename` from
the init datetime (empty when the datetime is `None`). -/
def dtDict : Option PyDatetime → List (String × String)
  | some d => [("yyyymmdd", pad4 d.year ++ pad2 d.month ++ pad2 d.day),
               ("hh", pad2 d.hour)]
  | none => []

/-- The `TypeError` CPython raises while unpacking
`format(**dt_dict, **namespace)` when both bind the same keyword. -/
def dupKwMsg (k : String) : String :=
  "TypeError: format() got multiple values for keyword argument " ++ k

/-- `FieldSource.get_filename` from `seanode/field_source.py`:
`self.filename_template.format(**dt_dict, **namespace)`.  Unpacking the
two keyword dicts raises a `TypeError` naming the first namespace key
that is already bound by the derived date dict; otherwise the template
is formatted with the union of both dicts. -/
def FieldSource.get_filename (fs : FieldSource)
    (init_datetime : Option PyDatetime) (ns : List (String × String)) :
    Except String String :=
  match fs.filename_template with
  | PyVal.str tpl =>
      match ns.find? (fun kv =>
          (dtDict init_datetime).any (fun dv => dv.1 == kv.1)) with
      | some kv => .error (dupKwMsg kv.1)
      | none => formatTpl tpl (dtDict init_datetime ++ ns)
  | _ => .error "TypeError: filename_template is not a string"

/-- `Except.map` returns a success exactly when its argument does. -/
lemma except_map_ok_iff (f : String → String) (e : Except String String) :
    (∃ s, Except.map f e = .ok s) ↔ ∃ s, e = .ok s := by
  cases e with
  | ok s => exact ⟨fun _ => ⟨s, rfl⟩, fun _ => ⟨f s, rfl⟩⟩
  | error m => simp [Except.map]

/-- Rendering succeeds exactly when every placeholder key is bound. -/
lemma renderSegs_ok_iff (segs : List TplSeg) (ns : List (String × String)) :
    (∃ s, renderSegs segs ns = .ok s)
      ↔ ∀ k ∈ holeNames segs, (alookup ns k).isSome := by
  induction segs with
  | nil => simp [renderSegs, holeNames]
  | cons seg rest ih =>
      cases seg with
      | lit c =>
          simp only [renderSegs, holeNames]
          rw [except_map_ok_iff]
          exact ih
      | hole key =>
          cases h : alookup ns (keyNameOf key) with
          | some v =>
              simp only [renderSegs, h, holeNames]
              rw [except_map_ok_iff, ih]
              simp [h]
          | none =>
              simp only [renderSegs, h, holeNames]
              constructor
              · rintro ⟨s, hs⟩
                cases hs
              · intro hall
                have hk := hall (keyNameOf key) (List.mem_cons_self _ _)
                simp [h] at hk

/-- A rendering error is a `KeyError` naming some unbound placeholder. -/
lemma renderSegs_error_names_missing (segs : List TplSeg)
    (ns : List (String × String)) (m : String)
    (h : renderSegs segs ns = .error m) :
    ∃ k, k ∈ holeNames segs ∧ alookup ns k = none ∧ m = keyErrorMsg k := by
  induction segs with
  | nil => simp [renderSegs] at h
  | cons seg rest ih =>
      cases seg with
      | lit c =>
          simp only [renderSegs] at h
          cases h2 : renderSegs rest ns with
          | ok s => rw [h2] at h; simp [Except.map] at h
          | error e =>
              rw [h2] at h
              simp only [Except.map] at h
              cases h
              obtain ⟨k, hk, hnone, hm⟩ := ih h2
              exact ⟨k, by simp [holeNames, hk], hnone, hm⟩
      | hole key =>
          simp only [renderSegs] at h
          cases hl : alookup ns (keyNameOf key) with
          | some v =>
              rw [hl] at h
              cases h2 : renderSegs rest ns with
              | ok s => rw [h2] at h; simp [Except.map] at h
              | error e =>
                  rw [h2] at h
                  simp only [Except.map] at h
                  cases h
                  obtain ⟨k, hk, hnone, hm⟩ := ih h2
                  exact ⟨k, by simp [holeNames, hk], hnone, hm⟩
          | none =>
              rw [hl] at h
              cases h
              exact ⟨keyNameOf key, by simp [holeNames], hl, rfl⟩

/-- Rendering only consults the namespace at the placeholder keys. -/
lemma renderSegs_congr (segs : List TplSeg)
    (ns ns' : List (String × String))
    (h : ∀ k ∈ holeNames segs, alookup ns k = alookup ns' k) :
    renderSegs segs ns = renderSegs segs ns' := by
  induction segs with
  | nil => rfl
  | cons seg rest ih =>
      cases seg with
      | lit c =>
          simp only [renderSegs]
          rw [ih (fun k hk => h k (by simp [holeNames, hk]))]
      | hole key =>
          simp only [renderSegs]
          rw [← h (keyNameOf key) (by simp [holeNames])]
          cases alookup ns (keyNameOf key) with
          | some v => rw [ih (fun k hk => h k (by simp [holeNames, hk]))]
          | none => rfl

/-- Lookup distributes over appended association lists. -/
lemma alookup_append {α β : Type} [DecidableEq α]
    (l1 l2 : List (α × β)) (k : α) :
    alookup (l1 ++ l2) k
      = match alookup l1 k with
        | some v => some v
        | none => alookup l2 k := by
  induction l1 with
  | nil => simp [alookup]
  | cons kv rest ih =>
      by_cases hk : kv.1 = k
      · simp [alookup, hk]
      · simpa [alookup, hk] using ih

/-- Keys bound by none of the pairs look up to `none`. -/
lemma alookup_eq_none {α β : Type} [DecidableEq α]
    (l : List (α × β)) (k : α) (h : ∀ kv ∈ l, kv.1 ≠ k) :
    alookup l k = none := by
  induction l with
  | nil => rfl
  | cons kv rest ih =>
      simp only [alookup, if_neg (h kv (List.mem_cons_self kv rest))]
      exact ih (fun kv' h' => h kv' (List.mem_cons_of_mem kv h'))

/-- Counterexample to the C9 claim as stated: the namespace key `hh` is
not used by the template `f.nc`, yet with an init datetime supplied the
call `format(**dt_dict, **namespace)` raises a `TypeError` for the
duplicated keyword instead of silently ignoring the key (the same inputs
with an empty namespace render fine). -/
theorem get_filename_dup_key_counterexample :
    FieldSource.get_filename
        ⟨PyVal.str "f.nc", PyVal.vlist [], PyVal.cdict [],
          PyVal.geom FileGeometry.GRID, PyVal.str "nc"⟩
        (some ⟨2023, 1, 15, 6, 0⟩) [("hh", "06")]
      = Except.error (dupKwMsg "hh")
    ∧ FieldSource.get_filename
        ⟨PyVal.str "f.nc", PyVal.vlist [], PyVal.cdict [],
          PyVal.geom FileGeometry.GRID, PyVal.str "nc"⟩
        (some ⟨2023, 1, 15, 6, 0⟩) []
      = Except.ok "f.nc"
    ∧ "hh" ∉ tplPlaceholders "f.nc" := by
  refine ⟨rfl, rfl, by decide⟩

/-- C9 (amended): `FieldSource.get_filename` (1) renders the template
`dir/{yyyymmdd}/f.t{hh}z.nc` at init datetime 2023-01-15 06:00 to
`dir/20230115/f.t06z.nc`; (2) any error is the duplicate-keyword
`TypeError` naming a namespace key that is also a derived date key, the
malformed-template error, or a `KeyError` naming a placeholder key bound
neither by the derived date dict nor by the namespace; (3) namespace
entries whose keys are neither placeholders of the template nor derived
date keys never change the result; (4) a namespace binding a derived
date key always raises the duplicate-keyword `TypeError` naming such a
key, before any rendering. -/
theorem get_filename_correct :
    (FieldSource.get_filename
        ⟨PyVal.str "dir/\x7byyyymmdd\x7d/f.t\x7bhh\x7dz.nc", PyVal.vlist [],
          PyVal.cdict [], PyVal.geom FileGeometry.GRID, PyVal.str "nc"⟩
        (some ⟨2023, 1, 15, 6, 0⟩) []
      = .ok "dir/20230115/f.t06z.nc")
    ∧ (∀ (fs : FieldSource) (tpl : String) (init : Option PyDatetime)
        (ns : List (String × String)) (m : String),
        fs.filename_template = PyVal.str tpl →
        fs.get_filename init ns = .error m →
        (∃ k, m = dupKwMsg k ∧ (∃ v, (k, v) ∈ ns)
            ∧ k ∈ (dtDict init).map Prod.fst)
        ∨ m = "ValueError: unterminated placeholder in format string"
        ∨ ∃ k, m = keyErrorMsg k ∧ k ∈ tplPlaceholders tpl
            ∧ alookup (dtDict init ++ ns) k = none)
    ∧ (∀ (fs : FieldSource) (tpl : String) (init : Option PyDatetime)
        (ns extra : List (String × String)),
        fs.filename_template = PyVal.str tpl →
        (∀ kv ∈ extra, kv.1 ∉ tplPlaceholders tpl
            ∧ kv.1 ∉ (dtDict init).map Prod.fst) →
        fs.get_filename init (ns ++ extra) = fs.get_filename init ns)
    ∧ (∀ (fs : FieldSource) (tpl : String) (init : Option PyDatetime)
        (ns : List (String × String)),
        fs.filename_template = PyVal.str tpl →
        (∃ kv ∈ ns, kv.1 ∈ (dtDict init).map Prod.fst) →
        ∃ k, fs.get_filename init ns = .error (dupKwMsg k)
          ∧ (∃ v, (k, v) ∈ ns) ∧ k ∈ (dtDict init).map Prod.fst) := by
  have hkey : ∀ (init : Option PyDatetime) (kv : String × String),
      ((dtDict init).any (fun dv => dv.1 == kv.1) = true)
        ↔ kv.1 ∈ (dtDict init).map Prod.fst := by
    intro init kv
    rw [List.any_eq_true]
    constructor
    · rintro ⟨dv, hdv, hbeq⟩
      exact List.mem_map.mpr ⟨dv, hdv, by simpa using hbeq⟩
    · intro h
      obtain ⟨dv, hdv, hdv1⟩ := List.mem_map.mp h
      exact ⟨dv, hdv, by simpa using hdv1⟩
  have hsome : ∀ (fs : FieldSource) (tpl : String) (init : Option PyDatetime)
      (ns : List (String × String)) (kv : String × String),
      fs.filename_template = PyVal.str tpl →
      ns.find? (fun kv => (dtDict init).any (fun dv => dv.1 == kv.1))
        = some kv →
      fs.get_filename init ns = .error (dupKwMsg kv.1) := by
    intro fs tpl init ns kv htpl hfind
    simp only [FieldSource.get_filename, htpl, hfind]
  have hstr : ∀ (fs : FieldSource) (tpl : String) (init : Option PyDatetime)
      (ns : List (String × String)), fs.filename_template = PyVal.str tpl →
      ns.find? (fun kv => (dtDict init).any (fun dv => dv.1 == kv.1)) = none →
      fs.get_filename init ns = formatTpl tpl (dtDict init ++ ns) := by
    intro fs tpl init ns htpl hfind
    simp only [FieldSource.get_filename, htpl, hfind]
  refine ⟨by rfl, ?_, ?_, ?_⟩
  · intro fs tpl init ns m htpl herr
    cases hfind : ns.find? (fun kv =>
        (dtDict init).any (fun dv => dv.1 == kv.1)) with
    | some kv =>
        rw [hsome fs tpl init ns kv htpl hfind] at herr
        cases herr
        have hpred := List.find?_some hfind
        exact Or.inl ⟨kv.1, rfl, ⟨kv.2, List.mem_of_find?_eq_some hfind⟩,
          (hkey init kv).mp hpred⟩
    | none =>
        rw [hstr fs tpl init ns htpl hfind] at herr
        unfold formatTpl at herr
        cases hscan : scanTpl tpl.toList false [] with
        | none =>
            rw [hscan] at herr
            cases herr
            exact Or.inr (Or.inl rfl)
        | some segs =>
            rw [hscan] at herr
            obtain ⟨k, hk, hnone, hm⟩ :=
              renderSegs_error_names_missing segs (dtDict init ++ ns) m herr
            refine Or.inr (Or.inr ⟨k, hm, ?_, hnone⟩)
            unfold tplPlaceholders
            rw [hscan]
            exact hk
  · intro fs tpl init ns extra htpl hextra
    have hfindextra : extra.find? (fun kv =>
        (dtDict init).any (fun dv => dv.1 == kv.1)) = none := by
      rw [List.find?_eq_none]
      intro kv hkv hpred
      exact (hextra kv hkv).2 ((hkey init kv).mp hpred)
    cases hfind : ns.find? (fun kv =>
        (dtDict init).any (fun dv => dv.1 == kv.1)) with
    | some kv =>
        have hfind2 : (ns ++ extra).find? (fun kv =>
            (dtDict init).any (fun dv => dv.1 == kv.1)) = some kv := by
          rw [List.find?_append, hfind]
          rfl
        rw [hsome fs tpl init (ns ++ extra) kv htpl hfind2,
          hsome fs tpl init ns kv htpl hfind]
    | none =>
        have hfind2 : (ns ++ extra).find? (fun kv =>
            (dtDict init).any (fun dv => dv.1 == kv.1)) = none := by
          rw [List.find?_append, hfind, hfindextra]
          rfl
        rw [hstr fs tpl init (ns ++ extra) htpl hfind2,
          hstr fs tpl init ns htpl hfind]
        unfold formatTpl
        cases hscan : scanTpl tpl.toList false [] with
        | none => rfl
        | some segs =>
            refine renderSegs_congr segs _ _ (fun k hk => ?_)
            have hkp : k ∈ tplPlaceholders tpl := by
              unfold tplPlaceholders
              rw [hscan]
              exact hk
            have hnone : alookup extra k = none :=
              alookup_eq_none extra k (fun kv hkv heq =>
                (hextra kv hkv).1 (heq ▸ hkp))
            rw [show dtDict init ++ (ns ++ extra)
                = (dtDict init ++ ns) ++ extra by rw [List.append_assoc]]
            rw [alookup_append, hnone]
            cases alookup (dtDict init ++ ns) k <;> rfl
  · intro fs tpl init ns htpl hdup
    cases hfind : ns.find? (fun kv =>
        (dtDict init).any (fun dv => dv.1 == kv.1)) with
    | some kv =>
        have hpred := List.find?_some hfind
        exact ⟨kv.1, hsome fs tpl init ns kv htpl hfind,
          ⟨kv.2, List.mem_of_find?_eq_some hfind⟩, (hkey init kv).mp hpred⟩
    | none =>
        obtain ⟨kv, hkv, hkv1⟩ := hdup
        rw [List.find?_eq_none] at hfind
        exact absurd ((hkey init kv).mpr hkv1) (hfind kv hkv)

/-- Concrete instance of `get_filename_correct`: a namespace key neither
used by the template nor derived from the date does not change the
rendered filename. -/
theorem get_filename_correct_witness :
    FieldSource.get_filename
        ⟨PyVal.str "dir/\x7byyyymmdd\x7d/f.t\x7bhh\x7dz.nc", PyVal.vlist [],
          PyVal.cdict [], PyVal.geom FileGeometry.GRID, PyVal.str "nc"⟩
        (some ⟨2023, 1, 15, 6, 0⟩) [("unused", "v")]
      = FieldSource.get_filename
        ⟨PyVal.str "dir/\x7byyyymmdd\x7d/f.t\x7bhh\x7dz.nc", PyVal.vlist [],
          PyVal.cdict [], PyVal.geom FileGeometry.GRID, PyVal.str "nc"⟩
        (some ⟨2023, 1, 15, 6, 0⟩) [] := by
  have h := get_filename_correct.2.2.1
    ⟨PyVal.str "dir/\x7byyyymmdd\x7d/f.t\x7bhh\x7dz.nc", PyVal.vlist [],
      PyVal.cdict [], PyVal.geom FileGeometry.GRID, PyVal.str "nc"⟩
    "dir/\x7byyyymmdd\x7d/f.t\x7bhh\x7dz.nc"
    (some ⟨2023, 1, 15, 6, 0⟩) [] [("unused", "v")] rfl (by decide)
  simpa using h

/-! ## Result merger (`SurgeModelRequest._concat_and_update`)

A pandas data frame with a `(station, time)` multi-index is modelled as a
row-key list, a column list, and an association list of non-missing cells
(`NaN` cells are simply absent). -/

/-- A per-task result table keyed by `(station, time)`. -/
structure PDFrame where
  rows : List (String × ℤ)
  cols : List String
  cells : List (((String × ℤ) × String) × ℚ)
deriving DecidableEq, Repr

/-- The value of a cell: defined only inside the frame's index/columns,
`none` for a missing (`NaN`) value. -/
def getCell (df : PDFrame) (k : String × ℤ) (c : String) : Option ℚ :=
  if k ∈ df.rows ∧ c ∈ df.cols then alookup df.cells (k, c) else none

/-- Well-formedness of a frame: every stored cell lies inside the frame's
index and columns (true of every pandas frame by construction). -/
def dfWf (df : PDFrame) : Prop :=
  ∀ e ∈ df.cells, e.1.1 ∈ df.rows ∧ e.1.2 ∈ df.cols

/-- The per-column fills of `result.update(df, overwrite=False)` for one
row key: adopt `df`'s value at every cell where the accumulator currently
stores nothing. -/
def fillsFor (acc df : PDFrame) (cols' : List String) (k : String × ℤ) :
    List (((String × ℤ) × String) × ℚ) :=
  cols'.filterMap (fun c =>
    match alookup acc.cells (k, c) with
    | some _ => none
    | none =>
        match getCell df k c with
        | some v => some ((k, c), v)
        | none => none)

/-- One iteration of `_concat_and_update` from `seanode/request.py`:
append `df`'s new row keys and new columns to the accumulator (as missing
placeholders), then `update(df, overwrite=False)` — fill every missing
accumulator cell from `df`, never overwriting a non-missing value. -/
def updateStep (acc df : PDFrame) : PDFrame :=
  let rows' := acc.rows ++ df.rows.filter (fun r => decide (r ∉ acc.rows))
  let cols' := acc.cols ++ df.cols.filter (fun c => decide (c ∉ acc.cols))
  ⟨rows', cols', acc.cells ++ rows'.flatMap (fillsFor acc df cols')⟩

/-- `SurgeModelRequest._concat_and_update`: fold the later frames into the
first with `updateStep`. -/
def concat_and_update (dfs : List PDFrame) : PDFrame :=
  match dfs with
  | [] => ⟨[], [], []⟩
  | df :: rest => rest.foldl updateStep df

/-- The value of the first frame in the list that defines the cell
non-missing. -/
def firstCell : List PDFrame → (String × ℤ) → String → Option ℚ
  | [], _, _ => none
  | df :: rest, k, c =>
      match getCell df k c with
      | some v => some v
      | none => firstCell rest k c

/-- A successful association-list lookup exhibits a stored pair. -/
lemma alookup_mem {α β : Type} [DecidableEq α]
    (l : List (α × β)) (x : α) (v : β) (h : alookup l x = some v) :
    (x, v) ∈ l := by
  induction l with
  | nil => cases h
  | cons kv rest ih =>
      obtain ⟨a, b⟩ := kv
      by_cases hk : a = x
      · subst hk
        rw [alookup, if_pos rfl] at h
        cases h
        exact List.mem_cons_self _ _
      · rw [alookup, if_neg hk] at h
        exact List.mem_cons_of_mem _ (ih h)

/-- Every fill entry for row key `k` is keyed `(k, c)` with `c` a column. -/
lemma fillsFor_keys (acc df : PDFrame) (cols' : List String)
    (k : String × ℤ) :
    ∀ e ∈ fillsFor acc df cols' k, e.1.1 = k ∧ e.1.2 ∈ cols' := by
  intro e he
  obtain ⟨c, hc, hce⟩ := List.mem_filterMap.mp he
  cases h1 : alookup acc.cells (k, c) with
  | some v => rw [h1] at hce; cases hce
  | none =>
      rw [h1] at hce
      cases h2 : getCell df k c with
      | some v => rw [h2] at hce; cases hce; exact ⟨rfl, hc⟩
      | none => rw [h2] at hce; cases hce

/-- Lookup inside one row's fill entries. -/
lemma fillsFor_lookup (acc df : PDFrame) (cols' : List String)
    (k : String × ℤ) (c : String) :
    alookup (fillsFor acc df cols' k) (k, c)
      = if c ∈ cols' ∧ alookup acc.cells (k, c) = none
        then getCell df k c else none := by
  induction cols' with
  | nil => simp [fillsFor, alookup]
  | cons c0 rest ih =>
      by_cases hc0 : c0 = c
      · subst hc0
        cases h1 : alookup acc.cells (k, c0) with
        | some v =>
            simp only [fillsFor, List.filterMap_cons, h1]
            rw [show (fillsFor acc df rest k)
              = List.filterMap _ rest from rfl] at ih
            rw [ih]
            simp [h1]
        | none =>
            cases h2 : getCell df k c0 with
            | some v =>
                simp only [fillsFor, List.filterMap_cons, h1, h2]
                simp [alookup, h2]
            | none =>
                simp only [fillsFor, List.filterMap_cons, h1, h2]
                rw [show (fillsFor acc df rest k)
                  = List.filterMap _ rest from rfl] at ih
                rw [ih]
                by_cases hr : c0 ∈ rest
                · simp [hr, h1, h2]
                · simp [hr, h1, h2]
      · have hstep : alookup (fillsFor acc df (c0 :: rest) k) (k, c)
            = alookup (fillsFor acc df rest k) (k, c) := by
          simp only [fillsFor, List.filterMap_cons]
          cases h1 : alookup acc.cells (k, c0) with
          | some v => rfl
          | none =>
              cases h2 : getCell df k c0 with
              | some v =>
                  rw [alookup, if_neg (by simp [hc0])]
              | none => rfl
        rw [hstep, ih]
        have hcc : ¬(c = c0) := fun h => hc0 h.symm
        by_cases hr : c ∈ rest
        · simp [hr, hcc]
        · simp [hr, hcc]

/-- Lookup across all rows' fill entries. -/
lemma fills_lookup (acc df : PDFrame) (rows' : List (String × ℤ))
    (cols' : List String) (k : String × ℤ) (c : String) :
    alookup (rows'.flatMap (fillsFor acc df cols')) (k, c)
      = if k ∈ rows' ∧ c ∈ cols' ∧ alookup acc.cells (k, c) = none
        then getCell df k c else none := by
  induction rows' with
  | nil => simp [alookup]
  | cons k0 rest ih =>
      rw [List.flatMap_cons, alookup_append]
      by_cases hk0 : k0 = k
      · subst hk0
        rw [fillsFor_lookup]
        by_cases hcc : c ∈ cols' ∧ alookup acc.cells (k0, c) = none
        · rw [if_pos hcc]
          cases h2 : getCell df k0 c with
          | some v =>
              rw [if_pos ⟨List.mem_cons_self k0 rest, hcc.1, hcc.2⟩]
          | none =>
              rw [ih]
              simp [hcc, h2]
        · rw [if_neg hcc, ih]
          have h3 : ¬(k0 ∈ rest ∧ c ∈ cols'
              ∧ alookup acc.cells (k0, c) = none) := by tauto
          have h4 : ¬(k0 ∈ k0 :: rest ∧ c ∈ cols'
              ∧ alookup acc.cells (k0, c) = none) := by tauto
          rw [if_neg h3, if_neg h4]
      · have hnone : alookup (fillsFor acc df cols' k0) (k, c) = none := by
          apply alookup_eq_none
          intro kv hkv heq
          have h5 := (fillsFor_keys acc df cols' k0 kv hkv).1
          rw [heq] at h5
          exact hk0 h5.symm
        rw [hnone, ih]
        have h6 : (k ∈ k0 :: rest) ↔ k ∈ rest := by
          constructor
          · intro h
            rcases List.mem_cons.mp h with h | h
            · exact absurd h.symm hk0
            · exact h
          · exact List.mem_cons_of_mem k0
        by_cases hkr : k ∈ rest ∧ c ∈ cols' ∧ alookup acc.cells (k, c) = none
        · rw [if_pos hkr, if_pos ⟨h6.mpr hkr.1, hkr.2⟩]
        · rw [if_neg hkr, if_neg (fun hx => hkr ⟨h6.mp hx.1, hx.2⟩)]

/-- A cell that is missing in a well-formed frame has no stored entry. -/
lemma alookup_cells_of_getCell_none (acc : PDFrame) (hwf : dfWf acc)
    (k : String × ℤ) (c : String) (h : getCell acc k c = none) :
    alookup acc.cells (k, c) = none := by
  cases ha : alookup acc.cells (k, c) with
  | none => rfl
  | some w =>
      have hmem := alookup_mem acc.cells (k, c) w ha
      have hkc := hwf _ hmem
      unfold getCell at h
      rw [if_pos hkc, ha] at h
      cases h

/-- One merge step reads the accumulator's value first and falls back to
the incoming frame: existing non-missing cells are never overwritten. -/
lemma getCell_updateStep (acc df : PDFrame) (hwf : dfWf acc)
    (k : String × ℤ) (c : String) :
    getCell (updateStep acc df) k c
      = match getCell acc k c with
        | some v => some v
        | none => getCell df k c := by
  have hrows : ∀ x, x ∈ acc.rows ++ df.rows.filter (fun r => decide (r ∉ acc.rows))
      ↔ (x ∈ acc.rows ∨ x ∈ df.rows) := by
    intro x
    simp only [List.mem_append, List.mem_filter, decide_eq_true_eq]
    tauto
  have hcols : ∀ x, x ∈ acc.cols ++ df.cols.filter (fun c => decide (c ∉ acc.cols))
      ↔ (x ∈ acc.cols ∨ x ∈ df.cols) := by
    intro x
    simp only [List.mem_append, List.mem_filter, decide_eq_true_eq]
    tauto
  cases hga : getCell acc k c with
  | some v =>
      have hg : k ∈ acc.rows ∧ c ∈ acc.cols := by
        by_contra hn
        unfold getCell at hga
        rw [if_neg hn] at hga
        cases hga
      have ha : alookup acc.cells (k, c) = some v := by
        unfold getCell at hga
        rw [if_pos hg] at hga
        exact hga
      unfold updateStep getCell
      rw [if_pos ⟨(hrows k).mpr (Or.inl hg.1), (hcols c).mpr (Or.inl hg.2)⟩,
        alookup_append, ha]
  | none =>
      have ha := alookup_cells_of_getCell_none acc hwf k c hga
      cases hgd : getCell df k c with
      | some w =>
          have hgdm : k ∈ df.rows ∧ c ∈ df.cols := by
            by_contra hn
            unfold getCell at hgd
            rw [if_neg hn] at hgd
            cases hgd
          have hk' : k ∈ acc.rows ++ df.rows.filter (fun r => decide (r ∉ acc.rows)) :=
            (hrows k).mpr (Or.inr hgdm.1)
          have hc' : c ∈ acc.cols ++ df.cols.filter (fun c => decide (c ∉ acc.cols)) :=
            (hcols c).mpr (Or.inr hgdm.2)
          unfold updateStep getCell
          rw [if_pos ⟨hk', hc'⟩, alookup_append, ha, fills_lookup,
            if_pos ⟨hk', hc', ha⟩, hgd]
      | none =>
          unfold updateStep getCell
          by_cases hguard : k ∈ acc.rows ++ df.rows.filter (fun r => decide (r ∉ acc.rows))
              ∧ c ∈ acc.cols ++ df.cols.filter (fun c => decide (c ∉ acc.cols))
          · rw [if_pos hguard, alookup_append, ha, fills_lookup]
            by_cases hall : k ∈ acc.rows ++ df.rows.filter (fun r => decide (r ∉ acc.rows))
                ∧ c ∈ acc.cols ++ df.cols.filter (fun c => decide (c ∉ acc.cols))
                ∧ alookup acc.cells (k, c) = none
            · rw [if_pos hall, hgd]
            · rw [if_neg hall]
          · rw [if_neg hguard]

/-- `updateStep` preserves frame well-formedness. -/
lemma updateStep_wf (acc df : PDFrame) (hwf : dfWf acc) :
    dfWf (updateStep acc df) := by
  intro e he
  unfold updateStep at he ⊢
  simp only [List.mem_append] at he
  rcases he with he | he
  · exact ⟨List.mem_append_left _ (hwf e he).1,
      List.mem_append_left _ (hwf e he).2⟩
  · obtain ⟨k0, hk0, hke⟩ := List.mem_flatMap.mp he
    obtain ⟨h1, h2⟩ := fillsFor_keys acc df _ k0 e hke
    exact ⟨h1 ▸ hk0, h2⟩

/-- Row keys of a merge step: the union of both frames' keys. -/
lemma updateStep_rows (acc df : PDFrame) (k : String × ℤ) :
    k ∈ (updateStep acc df).rows ↔ (k ∈ acc.rows ∨ k ∈ df.rows) := by
  unfold updateStep
  simp only [List.mem_append, List.mem_filter, decide_eq_true_eq]
  tauto

/-- Columns of a merge step: the union of both frames' columns. -/
lemma updateStep_cols (acc df : PDFrame) (c : String) :
    c ∈ (updateStep acc df).cols ↔ (c ∈ acc.cols ∨ c ∈ df.cols) := by
  unfold updateStep
  simp only [List.mem_append, List.mem_filter, decide_eq_true_eq]
  tauto

/-- Folding frames into a well-formed accumulator reads the accumulator
first and then the frames in list order. -/
lemma foldl_getCell (rest : List PDFrame) :
    ∀ (acc : PDFrame), dfWf acc → ∀ (k : String × ℤ) (c : String),
      getCell (rest.foldl updateStep acc) k c
        = match getCell acc k c with
          | some v => some v
          | none => firstCell rest k c := by
  induction rest with
  | nil =>
      intro acc _ k c
      cases h : getCell acc k c <;> simp [firstCell, h]
  | cons df tl ih =>
      intro acc hacc k c
      rw [List.foldl_cons,
        ih (updateStep acc df) (updateStep_wf acc df hacc) k c,
        getCell_updateStep acc df hacc k c]
      cases h1 : getCell acc k c with
      | some v => rfl
      | none =>
          cases h2 : getCell df k c with
          | some w => simp [firstCell, h2]
          | none => simp [firstCell, h2]

/-- Row keys of the fold: union over the accumulator and all frames. -/
lemma foldl_rows (rest : List PDFrame) :
    ∀ (acc : PDFrame) (k : String × ℤ),
      k ∈ (rest.foldl updateStep acc).rows
        ↔ (k ∈ acc.rows ∨ ∃ df ∈ rest, k ∈ df.rows) := by
  induction rest with
  | nil => intro acc k; simp
  | cons df tl ih =>
      intro acc k
      rw [List.foldl_cons, ih (updateStep acc df) k]
      rw [updateStep_rows]
      constructor
      · rintro ((h | h) | ⟨d, hd, hk⟩)
        · exact Or.inl h
        · exact Or.inr ⟨df, List.mem_cons_self df tl, h⟩
        · exact Or.inr ⟨d, List.mem_cons_of_mem df hd, hk⟩
      · rintro (h | ⟨d, hd, hk⟩)
        · exact Or.inl (Or.inl h)
        · rcases List.mem_cons.mp hd with rfl | hd'
          · exact Or.inl (Or.inr hk)
          · exact Or.inr ⟨d, hd', hk⟩

/-- Columns of the fold: union over the accumulator and all frames. -/
lemma foldl_cols (rest : List PDFrame) :
    ∀ (acc : PDFrame) (c : String),
      c ∈ (rest.foldl updateStep acc).cols
        ↔ (c ∈ acc.cols ∨ ∃ df ∈ rest, c ∈ df.cols) := by
  induction rest with
  | nil => intro acc c; simp
  | cons df tl ih =>
      intro acc c
      rw [List.foldl_cons, ih (updateStep acc df) c]
      rw [updateStep_cols]
      constructor
      · rintro ((h | h) | ⟨d, hd, hk⟩)
        · exact Or.inl h
        · exact Or.inr ⟨df, List.mem_cons_self df tl, h⟩
        · exact Or.inr ⟨d, List.mem_cons_of_mem df hd, hk⟩
      · rintro (h | ⟨d, hd, hk⟩)
        · exact Or.inl (Or.inl h)
        · rcases List.mem_cons.mp hd with rfl | hd'
          · exact Or.inl (Or.inr hk)
          · exact Or.inr ⟨d, hd', hk⟩

/-- C5: merging an ordered list of well-formed tables is first-wins — for
every `(station, time)` key and column, the merged output holds the value
of the first table in the list that defines that cell non-missing; the
merged index and columns are the unions of the inputs' (rows and columns
are added, never replaced); and, witnessed on concrete tables `A`, `B`
defining the same cell with values 1 and 2, merging `[A, B]` keeps 1 while
merging `[B, A]` keeps 2 — the merge is not commutative. -/
theorem concat_and_update_correct (dfs : List PDFrame)
    (hne : dfs ≠ []) (hwf : ∀ df ∈ dfs, dfWf df) :
    (∀ (k : String × ℤ) (c : String),
      getCell (concat_and_update dfs) k c = firstCell dfs k c)
    ∧ (∀ k, k ∈ (concat_and_update dfs).rows ↔ ∃ df ∈ dfs, k ∈ df.rows)
    ∧ (∀ c, c ∈ (concat_and_update dfs).cols ↔ ∃ df ∈ dfs, c ∈ df.cols)
    ∧ (getCell (concat_and_update
          [⟨[("s", 0)], ["v"], [((("s", 0), "v"), 1)]⟩,
           ⟨[("s", 0)], ["v"], [((("s", 0), "v"), 2)]⟩]) ("s", 0) "v" = some 1
       ∧ getCell (concat_and_update
          [⟨[("s", 0)], ["v"], [((("s", 0), "v"), 2)]⟩,
           ⟨[("s", 0)], ["v"], [((("s", 0), "v"), 1)]⟩]) ("s", 0) "v" = some 2) := by
  cases dfs with
  | nil => exact absurd rfl hne
  | cons df rest =>
      refine ⟨?_, ?_, ?_, by rfl, by rfl⟩
      · intro k c
        show getCell (rest.foldl updateStep df) k c = _
        rw [foldl_getCell rest df (hwf df (List.mem_cons_self df rest)) k c]
        cases h : getCell df k c <;> simp [firstCell, h]
      · intro k
        show k ∈ (rest.foldl updateStep df).rows ↔ _
        rw [foldl_rows rest df k]
        constructor
        · rintro (h | ⟨d, hd, hk⟩)
          · exact ⟨df, List.mem_cons_self df rest, h⟩
          · exact ⟨d, List.mem_cons_of_mem df hd, hk⟩
        · rintro ⟨d, hd, hk⟩
          rcases List.mem_cons.mp hd with rfl | hd'
          · exact Or.inl hk
          · exact Or.inr ⟨d, hd', hk⟩
      · intro c
        show c ∈ (rest.foldl updateStep df).cols ↔ _
        rw [foldl_cols rest df c]
        constructor
        · rintro (h | ⟨d, hd, hk⟩)
          · exact ⟨df, List.mem_cons_self df rest, h⟩
          · exact ⟨d, List.mem_cons_of_mem df hd, hk⟩
        · rintro ⟨d, hd, hk⟩
          rcases List.mem_cons.mp hd with rfl | hd'
          · exact Or.inl hk
          · exact Or.inr ⟨d, hd', hk⟩

/-- Concrete instance of `concat_and_update_correct`: a missing cell in
the first table is filled by the second table, and the unioned column `w`
is added. -/
theorem concat_and_update_correct_witness :
    getCell (concat_and_update
      [⟨[("s", 0)], ["v"], []⟩,
       ⟨[("s", 0)], ["v", "w"],
        [((("s", 0), "v"), 3), ((("s", 0), "w"), 4)]⟩]) ("s", 0) "v"
      = some 3 := by
  have h := (concat_and_update_correct
    [⟨[("s", 0)], ["v"], []⟩,
     ⟨[("s", 0)], ["v", "w"],
      [((("s", 0), "v"), 3), ((("s", 0), "w"), 4)]⟩]
    (List.cons_ne_nil _ _)
    (by
      intro d hd
      rcases List.mem_cons.mp hd with rfl | hd'
      · intro e he
        cases he
      · rcases List.mem_cons.mp hd' with rfl | hd''
        · intro e he
          rcases List.mem_cons.mp he with rfl | he'
          · exact ⟨by simp, by simp⟩
          · rcases List.mem_cons.mp he' with rfl | he''
            · exact ⟨by simp, by simp⟩
            · cases he''
        · cases hd'')).1 ("s", 0) "v"
  rw [h]
  rfl

/-! ## Points subsetting (`analysis_task.extract_stations_by_nos_id`) -/

/-- The warning logged when no station-name record contains the ID. -/
def noMatchMsg (nos_id : String) : String :=
  "No model station matches for NOS ID " ++ nos_id

/-- The warning logged when several station-name records contain the ID. -/
def multiMatchMsg (nos_id : String) : String :=
  "More than one model station matches NOS ID " ++ nos_id

/-- One station record of the opened points dataset: the decoded
`station_name` entry and the record's `(time, value)` rows. -/
structure StationRecord where
  name : String
  values : List (ℤ × ℚ)
deriving DecidableEq, Repr

/-- Python's `needle in haystack` substring test on decoded names. -/
def strContains : List Char → List Char → Bool
  | [], ndl => ndl.isEmpty
  | c :: t, ndl => ndl.isPrefixOf (c :: t) || strContains t ndl

/-- `strContains` decides the textual-containment (infix) relation. -/
lemma strContains_iff_infix (hay ndl : List Char) :
    strContains hay ndl = true ↔ ndl <:+: hay := by
  induction hay with
  | nil =>
      simp [strContains, List.isEmpty_iff, List.infix_nil]
  | cons c t ih =>
      simp only [strContains, Bool.or_eq_true, List.isPrefixOf_iff_prefix,
        List.infix_cons_iff, ih]

/-- `obs_name_in_model`: the records whose station-name contains the ID. -/
def matchingRecords (records : List StationRecord) (nos_id : String) :
    List StationRecord :=
  records.filter (fun r => strContains r.name.toList nos_id.toList)

/-- The rows contributed by one requested ID: present only when the ID
matches exactly one record, keyed by the ID itself. -/
def rowsForId (records : List StationRecord) (nos_id : String) :
    List (String × ℤ × ℚ) :=
  match matchingRecords records nos_id with
  | [r] => r.values.map (fun tv => (nos_id, tv.1, tv.2))
  | _ => []

/-- The warning contributed by one requested ID, if any. -/
def warnForId (records : List StationRecord) (nos_id : String) :
    Option String :=
  match matchingRecords records nos_id with
  | [_] => none
  | [] => some (noMatchMsg nos_id)
  | _ => some (multiMatchMsg nos_id)

/-- `extract_stations_by_nos_id` from `seanode/analysis_task.py`: loop the
requested IDs; a unique substring match contributes that record's rows
keyed `(nos_id, time)`, zero or multiple matches log a warning and skip
the station while the remaining IDs are still processed.  Returns the
concatenated rows and the logged warnings. -/
def extract_stations_by_nos_id (records : List StationRecord)
    (station_id_list : List String) :
    List (String × ℤ × ℚ) × List String :=
  station_id_list.foldl (fun acc nos_id =>
    match matchingRecords records nos_id with
    | [r] => (acc.1 ++ r.values.map (fun tv => (nos_id, tv.1, tv.2)), acc.2)
    | [] => (acc.1, acc.2 ++ [noMatchMsg nos_id])
    | _ => (acc.1, acc.2 ++ [multiMatchMsg nos_id])) ([], [])

/-- The extraction fold appends each ID's rows and warnings in order. -/
lemma extract_stations_go (records : List StationRecord) :
    ∀ (ids : List String) (acc : List (String × ℤ × ℚ) × List String),
      ids.foldl (fun acc nos_id =>
        match matchingRecords records nos_id with
        | [r] => (acc.1 ++ r.values.map (fun tv => (nos_id, tv.1, tv.2)), acc.2)
        | [] => (acc.1, acc.2 ++ [noMatchMsg nos_id])
        | _ => (acc.1, acc.2 ++ [multiMatchMsg nos_id])) acc
      = (acc.1 ++ ids.flatMap (rowsForId records),
         acc.2 ++ ids.filterMap (warnForId records)) := by
  intro ids
  induction ids with
  | nil => intro acc; simp
  | cons nos_id tl ih =>
      intro acc
      rw [List.foldl_cons]
      cases hm : matchingRecords records nos_id with
      | nil =>
          rw [ih]
          simp [rowsForId, warnForId, hm, List.flatMap_cons, List.filterMap_cons]
      | cons r rtl =>
          cases rtl with
          | nil =>
              rw [ih]
              simp [rowsForId, warnForId, hm, List.flatMap_cons,
                List.filterMap_cons]
          | cons r2 rtl2 =>
              rw [ih]
              simp [rowsForId, warnForId, hm, List.flatMap_cons,
                List.filterMap_cons]

/-- C8: a produced row `(id, t, v)` exists iff `id` was requested, exactly
one record's station-name textually contains `id`, and `(t, v)` is one of
that record's rows; an ID with zero matches yields its no-match warning
and no row; an ID with several matches yields its ambiguity warning and
no row (the other IDs are still processed — their rows and warnings are
unaffected); and a record matches exactly when the ID is an infix of its
decoded station name. -/
theorem extract_stations_by_nos_id_correct (records : List StationRecord)
    (ids : List String) :
    (∀ (nos_id : String) (t : ℤ) (v : ℚ),
        (nos_id, t, v) ∈ (extract_stations_by_nos_id records ids).1
          ↔ nos_id ∈ ids ∧ ∃ r, matchingRecords records nos_id = [r]
              ∧ (t, v) ∈ r.values)
    ∧ (∀ nos_id ∈ ids, matchingRecords records nos_id = [] →
        noMatchMsg nos_id ∈ (extract_stations_by_nos_id records ids).2)
    ∧ (∀ nos_id ∈ ids, 2 ≤ (matchingRecords records nos_id).length →
        multiMatchMsg nos_id ∈ (extract_stations_by_nos_id records ids).2)
    ∧ (∀ (nos_id : String) (r : StationRecord),
        r ∈ matchingRecords records nos_id
          ↔ r ∈ records ∧ nos_id.toList <:+: r.name.toList) := by
  have hgo := extract_stations_go records ids ([], [])
  have h1 : (extract_stations_by_nos_id records ids).1
      = ids.flatMap (rowsForId records) := by
    unfold extract_stations_by_nos_id
    rw [hgo]
    simp
  have h2 : (extract_stations_by_nos_id records ids).2
      = ids.filterMap (warnForId records) := by
    unfold extract_stations_by_nos_id
    rw [hgo]
    simp
  refine ⟨?_, ?_, ?_, ?_⟩
  · intro nos_id t v
    rw [h1, List.mem_flatMap]
    constructor
    · rintro ⟨id', hid', hrow⟩
      unfold rowsForId at hrow
      cases hm : matchingRecords records id' with
      | nil => rw [hm] at hrow; cases hrow
      | cons r rtl =>
          cases rtl with
          | nil =>
              rw [hm] at hrow
              obtain ⟨tv, htv, heq⟩ := List.mem_map.mp hrow
              cases heq
              exact ⟨hid', r, hm, htv⟩
          | cons r2 rtl2 => rw [hm] at hrow; cases hrow
    · rintro ⟨hid, r, hm, htv⟩
      refine ⟨nos_id, hid, ?_⟩
      unfold rowsForId
      rw [hm]
      exact List.mem_map.mpr ⟨(t, v), htv, rfl⟩
  · intro nos_id hid hm
    rw [h2]
    apply List.mem_filterMap.mpr
    exact ⟨nos_id, hid, by unfold warnForId; rw [hm]⟩
  · intro nos_id hid hm
    rw [h2]
    apply List.mem_filterMap.mpr
    refine ⟨nos_id, hid, ?_⟩
    unfold warnForId
    cases hmm : matchingRecords records nos_id with
    | nil => rw [hmm] at hm; simp at hm
    | cons r rtl =>
        cases rtl with
        | nil => rw [hmm] at hm; simp at hm
        | cons r2 rtl2 => rfl
  · intro nos_id r
    unfold matchingRecords
    rw [List.mem_filter, strContains_iff_infix]

/-- Concrete instance of `extract_stations_by_nos_id_correct`: an ID
contained in no station name produces its no-match warning. -/
theorem extract_stations_by_nos_id_correct_witness :
    noMatchMsg "9999" ∈ (extract_stations_by_nos_id
      [⟨"TRDF1 SOUS41 8721604 FL", [(0, 5)]⟩] ["9999"]).2 := by
  exact (extract_stations_by_nos_id_correct
      [⟨"TRDF1 SOUS41 8721604 FL", [(0, 5)]⟩] ["9999"]).2.1
    "9999" (by decide) (by decide)

/-! ## Grid subsetting (`GridAnalysisTask.get_subset`) -/

/-- Modelled from the spec: `seanode.utils.switch_lon_lims` — called by
`GridAnalysisTask.get_subset` with `min_lon=-180.0` — is imported from
`seanode/utils.py`, which is absent from the source tree.  The spec fixes
its behavior: normalize a longitude into the canonical signed range
`[min_lon, min_lon + 360)`, e.g. 200° becomes −160°. -/
def switch_lon_lims (lon min_lon : ℚ) : ℚ :=
  (lon - min_lon) - 360 * ⌊(lon - min_lon) / 360⌋ + min_lon

/-- The longitude column after `switch_lon_lims(..., min_lon=-180.0)`. -/
def normalizeLons (lons : List ℚ) : List ℚ :=
  lons.map (fun lon => switch_lon_lims lon (-180))

/-- The longitude column after the subsequent `sortby('longitude')`. -/
def gridSortedLons (lons : List ℚ) : List ℚ :=
  (normalizeLons lons).mergeSort

/-- Positional nearest lookup along one coordinate, as performed by
`.sel(..., method='nearest')`: the single grid value minimizing the
absolute distance to the station coordinate (first minimizer wins). -/
def nearestLon : List ℚ → ℚ → Option ℚ
  | [], _ => none
  | l :: rest, x =>
      match nearestLon rest x with
      | none => some l
      | some m => some (if |m - x| < |l - x| then m else l)

/-- C7: grid longitudes are normalized into `[-180, 180)` (200° becomes
−160°), the normalized column is re-sorted (a sorted permutation of the
normalized values), and the positional nearest lookup selects exactly one
grid value, a minimizer of the distance to the station coordinate — no
interpolation. -/
theorem grid_lon_normalize_correct :
    (∀ lon : ℚ, -180 ≤ switch_lon_lims lon (-180)
        ∧ switch_lon_lims lon (-180) < 180)
    ∧ switch_lon_lims 200 (-180) = -160
    ∧ (∀ lons : List ℚ, (gridSortedLons lons).Sorted (· ≤ ·)
        ∧ (gridSortedLons lons).Perm (normalizeLons lons))
    ∧ (∀ (lons : List ℚ) (x : ℚ), lons ≠ [] →
        ∃ m, nearestLon lons x = some m ∧ m ∈ lons
          ∧ ∀ l ∈ lons, |m - x| ≤ |l - x|) := by
  refine ⟨?_, ?_, ?_, ?_⟩
  · intro lon
    unfold switch_lon_lims
    have h1 : (⌊(lon - (-180)) / 360⌋ : ℚ) ≤ (lon - (-180)) / 360 :=
      Int.floor_le _
    have h2 : (lon - (-180)) / 360 < ⌊(lon - (-180)) / 360⌋ + 1 :=
      Int.lt_floor_add_one _
    have h3 : (360 : ℚ) * ((lon - (-180)) / 360) = lon - (-180) := by
      field_simp
    constructor
    · nlinarith
    · nlinarith
  · unfold switch_lon_lims
    have h : ⌊(200 - (-180) : ℚ) / 360⌋ = 1 := by
      rw [Int.floor_eq_iff]
      norm_num
    rw [h]
    norm_num
  · intro lons
    exact ⟨List.sorted_mergeSort' _, List.mergeSort_perm _ _⟩
  · intro lons x
    induction lons with
    | nil => intro h; exact absurd rfl h
    | cons l rest ih =>
        intro _
        cases rest with
        | nil =>
            exact ⟨l, rfl, List.mem_singleton_self l,
              fun l' hl' => by rcases List.mem_singleton.mp hl' with rfl; rfl⟩
        | cons r rtl =>
            obtain ⟨m, hm, hmem, hmin⟩ := ih (List.cons_ne_nil r rtl)
            unfold nearestLon
            rw [hm]
            by_cases hlt : |m - x| < |l - x|
            · refine ⟨m, by
                show some (if |m - x| < |l - x| then m else l) = some m
                rw [if_pos hlt], List.mem_cons_of_mem l hmem, ?_⟩
              intro l' hl'
              rcases List.mem_cons.mp hl' with rfl | hl''
              · exact le_of_lt hlt
              · exact hmin l' hl''
            · refine ⟨l, by
                show some (if |m - x| < |l - x| then m else l) = some l
                rw [if_neg hlt], List.mem_cons_self l _, ?_⟩
              intro l' hl'
              rcases List.mem_cons.mp hl' with rfl | hl''
              · exact le_refl _
              · exact le_trans (not_lt.mp hlt) (hmin l' hl'')

/-- Concrete instance of `grid_lon_normalize_correct`: among the grid
longitudes `[-160, 0, 150]`, the station longitude −155 selects the single
nearest grid value. -/
theorem grid_lon_normalize_correct_witness :
    ∃ m, nearestLon [(-160 : ℚ), 0, 150] (-155) = some m
      ∧ m ∈ [(-160 : ℚ), 0, 150]
      ∧ ∀ l ∈ [(-160 : ℚ), 0, 150], |m - (-155)| ≤ |l - (-155)| :=
  grid_lon_normalize_correct.2.2.2 [(-160 : ℚ), 0, 150] (-155)
    (by simp)

/-! ## Catalog resolver: `ModelTaskCreator.get_init_time_forecast`

Datetimes are integer minutes; a day has 1440 minutes and
`datetime.date()` is flooring division by 1440.  Cycle hours are the
model's `cycles` tuple of whole hours. -/

/-- The day (floored) of a timeline minute. -/
def dayOf (t : ℤ) : ℤ := t.fdiv 1440

/-- `datetime.datetime(dd.year, dd.month, dd.day, cc)` for day `d` and
cycle hour `cc`. -/
def cycleTime (d : ℤ) (cc : ℕ) : ℤ := d * 1440 + cc * 60

/-- A declared cycle datetime of the daily schedule `cycles`. -/
def isCycle (cycles : List ℕ) (c : ℤ) : Prop :=
  ∃ (d : ℤ) (cc : ℕ), cc ∈ cycles ∧ c = cycleTime d cc

/-- The Python `max` of a nonempty list (via `maximum?`, defaulting 0 for
the empty list which Python would reject). -/
def listMax (l : List ℤ) : ℤ := l.foldl max (l.headD 0)

/-- `ModelTaskCreator.get_init_time_forecast` from
`seanode/models/model_task_creator.py`: build the same-day cycle
datetimes; if none is `<= start_date`, return the previous day's last
cycle, else the latest same-day cycle `<= start_date`.  Returns the
singleton lists `([init], [(init, None)])`. -/
def get_init_time_forecast (cycles : List ℕ) (start_date : ℤ) :
    List ℤ × List (ℤ × Option ℤ) :=
  let cycle_dates := cycles.map (fun c => cycleTime (dayOf start_date) c)
  let contains_start_date := cycle_dates.filter (fun cd => decide (cd ≤ start_date))
  let init_date :=
    if contains_start_date.isEmpty then listMax cycle_dates - 1440
    else listMax contains_start_date
  ([init_date], [(init_date, none)])

/-- Folding `max` from a seed yields the seed or a member, bounds the
seed, and bounds every member. -/
lemma foldl_max_spec :
    ∀ (tl : List ℤ) (a : ℤ),
      (tl.foldl max a = a ∨ tl.foldl max a ∈ tl)
      ∧ a ≤ tl.foldl max a
      ∧ ∀ x ∈ tl, x ≤ tl.foldl max a := by
  intro tl
  induction tl with
  | nil => exact fun a => ⟨Or.inl rfl, le_refl a, fun x hx => absurd hx (List.not_mem_nil x)⟩
  | cons b tl ih =>
      intro a
      rw [List.foldl_cons]
      rcases ih (max a b) with ⟨hmem, hle, hub⟩
      refine ⟨?_, le_trans (le_max_left a b) hle, ?_⟩
      · rcases hmem with h | h
        · rcases max_choice a b with hm | hm
          · exact Or.inl (h.trans hm)
          · exact Or.inr (by rw [h.trans hm]; exact List.mem_cons_self b tl)
        · exact Or.inr (List.mem_cons_of_mem b h)
      · intro x hx
        rcases List.mem_cons.mp hx with rfl | hx'
        · exact le_trans (le_max_right a x) hle
        · exact hub x hx'

/-- `listMax` of a nonempty list is a member and an upper bound. -/
lemma listMax_spec (l : List ℤ) (hne : l ≠ []) :
    listMax l ∈ l ∧ ∀ x ∈ l, x ≤ listMax l := by
  cases l with
  | nil => exact absurd rfl hne
  | cons a tl =>
      have heq : listMax (a :: tl) = tl.foldl max a := by
        unfold listMax
        simp [List.foldl_cons, max_self]
      rcases foldl_max_spec tl a with ⟨hmem, hle, hub⟩
      rw [heq]
      constructor
      · rcases hmem with h | h
        · rw [h]
          exact List.mem_cons_self a tl
        · exact List.mem_cons_of_mem a h
      · intro x hx
        rcases List.mem_cons.mp hx with rfl | hx'
        · exact hle
        · exact hub x hx'

/-- The flooring day division coincides with Euclidean division by the
positive constant 1440, making it amenable to `omega`. -/
lemma dayOf_eq (t : ℤ) : dayOf t = t / 1440 :=
  Int.fdiv_eq_ediv t (by norm_num)

/-- Basic bounds of the day floor. -/
lemma dayOf_bounds (t : ℤ) : dayOf t * 1440 ≤ t ∧ t < dayOf t * 1440 + 1440 := by
  rw [dayOf_eq]
  omega

/-- Monotonicity of the day floor. -/
lemma dayOf_mono {s t : ℤ} (h : s ≤ t) : dayOf s ≤ dayOf t := by
  rw [dayOf_eq, dayOf_eq]
  omega

/-- The day of a cycle datetime whose hour is below 24. -/
lemma dayOf_cycleTime (d : ℤ) (cc : ℕ) (hcc : cc < 24) :
    dayOf (cycleTime d cc) = d := by
  rw [dayOf_eq]
  unfold cycleTime
  omega

/-- C3: `get_init_time_forecast` returns a single declared cycle datetime
`init ≤ t` with no other declared cycle datetime in `(init, t]` (so none
strictly between `init` and `t`), paired with the open-ended slice
`(init, None)`; and when none of the same day's cycle datetimes is `≤ t`,
`init` is the latest cycle of the previous day. -/
theorem get_init_time_forecast_correct (cycles : List ℕ) (t : ℤ)
    (hne : cycles ≠ []) (hlt : ∀ cc ∈ cycles, cc < 24) :
    ∃ init,
      (get_init_time_forecast cycles t).1 = [init]
      ∧ (get_init_time_forecast cycles t).2 = [(init, none)]
      ∧ isCycle cycles init
      ∧ init ≤ t
      ∧ (∀ c, isCycle cycles c → init < c → t < c)
      ∧ ((∀ cc ∈ cycles, t < cycleTime (dayOf t) cc) →
          dayOf init = dayOf t - 1
          ∧ ∀ cc ∈ cycles, cycleTime (dayOf t - 1) cc ≤ init) := by
  have hday := dayOf_bounds t
  by_cases hempty :
      ((cycles.map (fun c => cycleTime (dayOf t) c)).filter
        (fun cd => decide (cd ≤ t))).isEmpty
  · -- no same-day cycle is ≤ t: previous day's last cycle
    have hcdsne : cycles.map (fun c => cycleTime (dayOf t) c) ≠ [] := by
      intro h
      exact hne (List.map_eq_nil_iff.mp h)
    obtain ⟨hmem, hub⟩ := listMax_spec _ hcdsne
    obtain ⟨ccM, hccM, hinitM⟩ := List.mem_map.mp hmem
    have hnocontain : ∀ cc ∈ cycles, ¬(cycleTime (dayOf t) cc ≤ t) := by
      intro cc hcc hle
      have hmem2 : cycleTime (dayOf t) cc ∈
          (cycles.map (fun c => cycleTime (dayOf t) c)).filter
            (fun cd => decide (cd ≤ t)) := by
        rw [List.mem_filter]
        exact ⟨List.mem_map.mpr ⟨cc, hcc, rfl⟩, by simpa using hle⟩
      rw [List.isEmpty_iff.mp hempty] at hmem2
      cases hmem2
    refine ⟨listMax (cycles.map (fun c => cycleTime (dayOf t) c)) - 1440,
      ?_, ?_, ?_, ?_, ?_, ?_⟩
    · simp [get_init_time_forecast, hempty]
    · simp [get_init_time_forecast, hempty]
    · unfold isCycle
      refine ⟨dayOf t - 1, ccM, hccM, ?_⟩
      rw [← hinitM]
      unfold cycleTime
      ring
    · have hccM24 := hlt ccM hccM
      rw [← hinitM]
      unfold cycleTime
      omega
    · intro c hc hgt
      obtain ⟨d', cc', hcc', rfl⟩ := hc
      by_contra hnlt
      have hle : cycleTime d' cc' ≤ t := by omega
      have hd' : dayOf (cycleTime d' cc') = d' :=
        dayOf_cycleTime d' cc' (hlt cc' hcc')
      have hdle : d' ≤ dayOf t := by
        have hmono := dayOf_mono hle
        rw [hd'] at hmono
        exact hmono
      rcases lt_or_eq_of_le hdle with hdlt | hdeq
      · have hub' := hub _ (List.mem_map.mpr ⟨cc', hcc', rfl⟩)
        unfold cycleTime at hgt hub'
        omega
      · subst hdeq
        exact hnocontain cc' hcc' hle
    · intro _
      constructor
      · rw [← hinitM,
          show cycleTime (dayOf t) ccM - 1440 = cycleTime (dayOf t - 1) ccM by
            unfold cycleTime; ring]
        exact dayOf_cycleTime _ ccM (hlt ccM hccM)
      · intro cc hcc
        have hub' := hub _ (List.mem_map.mpr ⟨cc, hcc, rfl⟩)
        unfold cycleTime at hub' hinitM ⊢
        omega
  · -- some same-day cycle is ≤ t: the latest of those
    have hcontne :
        (cycles.map (fun c => cycleTime (dayOf t) c)).filter
          (fun cd => decide (cd ≤ t)) ≠ [] := by
      intro h
      rw [← List.isEmpty_iff] at h
      exact hempty h
    obtain ⟨hmem, hub⟩ := listMax_spec _ hcontne
    rw [List.mem_filter] at hmem
    obtain ⟨hmem', hle⟩ := hmem
    obtain ⟨cc0, hcc0, hinit0⟩ := List.mem_map.mp hmem'
    simp only [decide_eq_true_eq] at hle
    refine ⟨listMax ((cycles.map (fun c => cycleTime (dayOf t) c)).filter
        (fun cd => decide (cd ≤ t))), ?_, ?_, ?_, hle, ?_, ?_⟩
    · simp [get_init_time_forecast, hempty]
    · simp [get_init_time_forecast, hempty]
    · unfold isCycle
      exact ⟨dayOf t, cc0, hcc0, hinit0.symm⟩
    · intro c hc hgt
      obtain ⟨d', cc', hcc', rfl⟩ := hc
      by_contra hnlt
      have hle' : cycleTime d' cc' ≤ t := by omega
      have hd' : dayOf (cycleTime d' cc') = d' :=
        dayOf_cycleTime d' cc' (hlt cc' hcc')
      have hdle : d' ≤ dayOf t := by
        have hmono := dayOf_mono hle'
        rw [hd'] at hmono
        exact hmono
      rcases lt_or_eq_of_le hdle with hdlt | hdeq
      · have h24 := hlt cc' hcc'
        have h0le : cycleTime (dayOf t) cc0 ≤ t := by
          rw [hinit0]
          exact hle
        unfold cycleTime at hgt hinit0
        rw [← hinit0] at hgt
        omega
      · subst hdeq
        have hmem2 : cycleTime (dayOf t) cc' ∈
            (cycles.map (fun c => cycleTime (dayOf t) c)).filter
              (fun cd => decide (cd ≤ t)) := by
          rw [List.mem_filter]
          exact ⟨List.mem_map.mpr ⟨cc', hcc', rfl⟩, by simpa using hle'⟩
        have := hub _ hmem2
        omega
    · intro hall
      exact absurd hle (not_le.mpr (by
        rw [← hinit0]
        exact hall cc0 hcc0))

/-- Concrete instance of `get_init_time_forecast_correct`: the GFS cycle
schedule at 17:00 of day 0 (minute 1020). -/
theorem get_init_time_forecast_correct_witness :
    ∃ init,
      (get_init_time_forecast [0, 6, 12, 18] 1020).1 = [init]
      ∧ (get_init_time_forecast [0, 6, 12, 18] 1020).2 = [(init, none)]
      ∧ isCycle [0, 6, 12, 18] init
      ∧ init ≤ 1020
      ∧ (∀ c, isCycle [0, 6, 12, 18] c → init < c → 1020 < c)
      ∧ ((∀ cc ∈ [0, 6, 12, 18], 1020 < cycleTime (dayOf 1020) cc) →
          dayOf init = dayOf 1020 - 1
          ∧ ∀ cc ∈ [0, 6, 12, 18], cycleTime (dayOf 1020 - 1) cc ≤ init) :=
  get_init_time_forecast_correct [0, 6, 12, 18] 1020 (by decide) (by decide)

/-! ## Catalog resolver: `get_init_times_nowcast`

The base-class method scans the days from `start_date.date()` through
`end_date.date() + 1 day` and selects the cycles whose nowcast window
`(cycle − nowcast_period, cycle]` meets `[start, end]`; the GFS override
uses the opposite window `[cycle, cycle + nowcast_period)` and returns
per-cycle lead-hour tuples instead of time slices. -/

/-- The scanned days: `start_date.date()` up to and including
`end_date.date() + 1 day`. -/
def nowcastDays (start_date end_date : ℤ) : List ℤ :=
  (List.range (dayOf end_date + 2 - dayOf start_date).toNat).map
    (fun (i : ℕ) => dayOf start_date + (i : ℤ))

/-- `ModelTaskCreator.get_init_times_nowcast` from
`seanode/models/model_task_creator.py`: for each scanned day and cycle
hour, with `nowcast_start = cycle − nowcast_period` and
`nowcast_end = cycle`, select the cycle when
`nowcast_end >= start_date and nowcast_start < end_date`, recording the
clipped slice `(max(nowcast_start, start_date),
min(nowcast_end, end_date))`. -/
def get_init_times_nowcast (cycles : List ℕ) (nowcast_period : ℕ)
    (start_date end_date : ℤ) : List ℤ × List (ℤ × ℤ) :=
  let days := nowcastDays start_date end_date
  (days.flatMap (fun dd => cycles.filterMap (fun cc =>
      if start_date ≤ cycleTime dd cc
          ∧ cycleTime dd cc - (nowcast_period : ℤ) * 60 < end_date
      then some (cycleTime dd cc) else none)),
   days.flatMap (fun dd => cycles.filterMap (fun cc =>
      if start_date ≤ cycleTime dd cc
          ∧ cycleTime dd cc - (nowcast_period : ℤ) * 60 < end_date
      then some (max (cycleTime dd cc - (nowcast_period : ℤ) * 60) start_date,
                 min (cycleTime dd cc) end_date)
      else none)))

/-- `math.ceil` of a minute count divided by one hour. -/
def ceilHours (x : ℤ) : ℤ := -((-x).fdiv 60)

/-- Python `range(a, b)` over integers. -/
def intRange (a b : ℤ) : List ℤ :=
  (List.range (b - a).toNat).map (fun (i : ℕ) => a + (i : ℤ))

/-- `GFSTaskCreator.get_init_times_nowcast` from `seanode/models/gfs.py`:
the nowcast window here is `[cycle, cycle + nowcast_period)` — the code
tests `nowcast_end > start_date and nowcast_start <= end_date` with
`nowcast_start = cycle` and `nowcast_end = cycle + nowcast_period` — and
the second result is a tuple of forecast lead hours per cycle. -/
def gfs_get_init_times_nowcast (cycles : List ℕ) (nowcast_period : ℕ)
    (start_date end_date : ℤ) : List ℤ × List (List ℤ) :=
  let days := nowcastDays start_date end_date
  (days.flatMap (fun dd => cycles.filterMap (fun cc =>
      if start_date < cycleTime dd cc + (nowcast_period : ℤ) * 60
          ∧ cycleTime dd cc ≤ end_date
      then some (cycleTime dd cc) else none)),
   days.flatMap (fun dd => cycles.filterMap (fun cc =>
      if start_date < cycleTime dd cc + (nowcast_period : ℤ) * 60
          ∧ cycleTime dd cc ≤ end_date
      then some (intRange
          (6 - min 6 (ceilHours (cycleTime dd cc + (nowcast_period : ℤ) * 60
              - start_date)))
          (1 + min 5 (ceilHours (end_date - cycleTime dd cc))))
      else none)))

/-- Counterexample to the C2 claim as stated for the GFS override: with
the GFS schedule (cycles 0, 6, 12, 18, nowcast period 6 h) and the
one-point query `start = end = 17:00` (minute 1020), the override selects
only the 12:00 cycle (minute 720); its claimed window
`(720 − 360, 720] = (6:00, 12:00]` lies entirely before 17:00, so it does
not intersect `[start, end]` — the override uses the opposite window
convention `[cycle, cycle + nowcast_period)`. -/
theorem gfs_get_init_times_nowcast_counterexample :
    (gfs_get_init_times_nowcast [0, 6, 12, 18] 6 1020 1020).1 = [720]
    ∧ ((720 : ℤ) < 1020) := by
  constructor
  · rfl
  · decide

/-- Membership in the scanned day list. -/
lemma mem_nowcastDays (s e dd : ℤ) (hse : s ≤ e) :
    dd ∈ nowcastDays s e ↔ dayOf s ≤ dd ∧ dd ≤ dayOf e + 1 := by
  have hmono := dayOf_mono hse
  simp only [nowcastDays, List.mem_map, List.mem_range]
  constructor
  · rintro ⟨i, hi, rfl⟩
    omega
  · rintro ⟨h1, h2⟩
    exact ⟨(dd - dayOf s).toNat, by omega, by omega⟩

/-- The code's selection test is exactly "the nowcast window
`(c − P·60, c]` intersects `[s, e]`". -/
lemma nowcast_window_intersects_iff (c s e : ℤ) (P : ℕ)
    (hse : s ≤ e) (hP : 0 < P) :
    (s ≤ c ∧ c - (P : ℤ) * 60 < e)
      ↔ ∃ t : ℤ, c - (P : ℤ) * 60 < t ∧ t ≤ c ∧ s ≤ t ∧ t ≤ e := by
  constructor
  · rintro ⟨h1, h2⟩
    rcases le_total c e with h | h
    · exact ⟨c, by omega, by omega, by omega, by omega⟩
    · exact ⟨e, by omega, by omega, by omega, by omega⟩
  · rintro ⟨t, h1, h2, h3, h4⟩
    omega

/-- Selected cycles are exactly the declared cycles passing the test. -/
lemma mem_nowcast_result (cycles : List ℕ) (P : ℕ) (s e : ℤ)
    (hse : s ≤ e) (hP24 : P ≤ 24) (hlt : ∀ cc ∈ cycles, cc < 24) (c : ℤ) :
    c ∈ (get_init_times_nowcast cycles P s e).1
      ↔ isCycle cycles c ∧ s ≤ c ∧ c - (P : ℤ) * 60 < e := by
  simp only [get_init_times_nowcast]
  rw [List.mem_flatMap]
  constructor
  · rintro ⟨dd, hdd, hmem⟩
    obtain ⟨cc, hcc, hsome⟩ := List.mem_filterMap.mp hmem
    by_cases hcond : s ≤ cycleTime dd cc ∧ cycleTime dd cc - (P : ℤ) * 60 < e
    · rw [if_pos hcond] at hsome
      cases hsome
      exact ⟨⟨dd, cc, hcc, rfl⟩, hcond⟩
    · rw [if_neg hcond] at hsome
      cases hsome
  · rintro ⟨⟨d, cc, hcc, rfl⟩, h1, h2⟩
    refine ⟨d, ?_, List.mem_filterMap.mpr ⟨cc, hcc, by rw [if_pos ⟨h1, h2⟩]⟩⟩
    rw [mem_nowcastDays s e d hse]
    have hd := dayOf_cycleTime d cc (hlt cc hcc)
    have hmono := dayOf_mono h1
    rw [hd] at hmono
    have hbe := dayOf_bounds e
    have hcc24 := hlt cc hcc
    unfold cycleTime at h2
    constructor
    · exact hmono
    · omega

/-- The selected cycle list is strictly ascending when the cycle schedule
is. -/
lemma nowcast_result_sorted (cycles : List ℕ) (P : ℕ) (s e : ℤ)
    (hsort : cycles.Sorted (· < ·)) (hlt : ∀ cc ∈ cycles, cc < 24) :
    (get_init_times_nowcast cycles P s e).1.Sorted (· < ·) := by
  have hdays : (nowcastDays s e).Pairwise (· < ·) := by
    unfold nowcastDays
    exact List.Pairwise.map _ (fun a b h => by omega) (List.sorted_lt_range _)
  have hextract : ∀ (dd x : ℤ),
      x ∈ cycles.filterMap (fun cc =>
        if s ≤ cycleTime dd cc ∧ cycleTime dd cc - (P : ℤ) * 60 < e
        then some (cycleTime dd cc) else none) →
      ∃ cc : ℕ, cc < 24 ∧ x = cycleTime dd cc := by
    intro dd x hx
    obtain ⟨cc, hcc, hsome⟩ := List.mem_filterMap.mp hx
    by_cases hcond : s ≤ cycleTime dd cc ∧ cycleTime dd cc - (P : ℤ) * 60 < e
    · rw [if_pos hcond] at hsome
      cases hsome
      exact ⟨cc, hlt cc hcc, rfl⟩
    · rw [if_neg hcond] at hsome
      cases hsome
  simp only [get_init_times_nowcast]
  unfold List.Sorted
  rw [List.pairwise_flatMap]
  constructor
  · intro dd _
    rw [List.pairwise_filterMap]
    refine hsort.imp ?_
    intro cc cc' hlt'
    intro b hb b' hb'
    by_cases hcond : s ≤ cycleTime dd cc ∧ cycleTime dd cc - (P : ℤ) * 60 < e
    · rw [if_pos hcond] at hb
      by_cases hcond' : s ≤ cycleTime dd cc' ∧ cycleTime dd cc' - (P : ℤ) * 60 < e
      · rw [if_pos hcond'] at hb'
        cases hb
        cases hb'
        unfold cycleTime
        omega
      · rw [if_neg hcond'] at hb'
        cases hb'
    · rw [if_neg hcond] at hb
      cases hb
  · refine hdays.imp ?_
    intro d1 d2 h12 x hx y hy
    obtain ⟨cc1, h241, rfl⟩ := hextract d1 x hx
    obtain ⟨cc2, h242, rfl⟩ := hextract d2 y hy
    unfold cycleTime
    omega

/-- The returned slices are the selected cycles' windows clipped to the
query interval, in the same order. -/
lemma nowcast_slices_eq (cycles : List ℕ) (P : ℕ) (s e : ℤ) :
    (get_init_times_nowcast cycles P s e).2
      = (get_init_times_nowcast cycles P s e).1.map
          (fun c => (max (c - (P : ℤ) * 60) s, min c e)) := by
  simp only [get_init_times_nowcast]
  rw [List.map_flatMap]
  congr 1
  funext dd
  rw [List.map_filterMap]
  congr 1
  funext cc
  by_cases hcond : s ≤ cycleTime dd cc ∧ cycleTime dd cc - (P : ℤ) * 60 < e
  · rw [if_pos hcond, if_pos hcond]
    rfl
  · rw [if_neg hcond, if_neg hcond]
    rfl

/-- C2 (amended to the base-class resolver): for `start ≤ end` and a
schedule with cycle hours below 24, strictly ascending, nowcast period
`0 < P ≤ 24` hours, and windows jointly covering the timeline,
`ModelTaskCreator.get_init_times_nowcast` returns (1) a strictly
ascending list of initialization times, (2) containing exactly the
declared cycles whose window `(c − P·60, c]` intersects `[start, end]`,
(3) paired in order with the slices
`(max(c − P·60, start), min(c, end))` — the window clipped to the query —
and (4) the selected windows jointly cover `[start, end]`. -/
theorem get_init_times_nowcast_correct (cycles : List ℕ) (P : ℕ)
    (start_date end_date : ℤ)
    (hse : start_date ≤ end_date) (hP0 : 0 < P) (hP24 : P ≤ 24)
    (hsort : cycles.Sorted (· < ·)) (hlt : ∀ cc ∈ cycles, cc < 24)
    (hcov : ∀ t : ℤ, ∃ c, isCycle cycles c ∧ t ≤ c ∧ c - (P : ℤ) * 60 < t) :
    ((get_init_times_nowcast cycles P start_date end_date).1.Sorted (· < ·))
    ∧ (∀ c, c ∈ (get_init_times_nowcast cycles P start_date end_date).1
        ↔ isCycle cycles c ∧ ∃ t : ℤ, c - (P : ℤ) * 60 < t ∧ t ≤ c
            ∧ start_date ≤ t ∧ t ≤ end_date)
    ∧ ((get_init_times_nowcast cycles P start_date end_date).2
        = (get_init_times_nowcast cycles P start_date end_date).1.map
            (fun c => (max (c - (P : ℤ) * 60) start_date, min c end_date)))
    ∧ (∀ t : ℤ, start_date ≤ t → t ≤ end_date →
        ∃ c ∈ (get_init_times_nowcast cycles P start_date end_date).1,
          c - (P : ℤ) * 60 < t ∧ t ≤ c) := by
  refine ⟨nowcast_result_sorted cycles P start_date end_date hsort hlt,
    ?_, nowcast_slices_eq cycles P start_date end_date, ?_⟩
  · intro c
    rw [mem_nowcast_result cycles P start_date end_date hse hP24 hlt c]
    rw [and_congr_right_iff]
    intro _
    exact nowcast_window_intersects_iff c start_date end_date P hse hP0
  · intro t hts hte
    obtain ⟨c, hcyc, htc, hct⟩ := hcov t
    refine ⟨c, ?_, hct, htc⟩
    rw [mem_nowcast_result cycles P start_date end_date hse hP24 hlt c]
    exact ⟨hcyc, by omega, by omega⟩

/-- The 6-hourly schedule 0, 6, 12, 18 with a 6-hour nowcast period
covers the whole timeline: every instant lies in some cycle's window. -/
lemma sixHourlyCoverage :
    ∀ t : ℤ, ∃ c, isCycle [0, 6, 12, 18] c ∧ t ≤ c
      ∧ c - ((6 : ℕ) : ℤ) * 60 < t := by
  intro t
  obtain ⟨k, hk1, hk2⟩ : ∃ k : ℤ, t ≤ 360 * k ∧ 360 * k - 360 < t :=
    ⟨(t + 359) / 360, by omega, by omega⟩
  have hr : k % 4 = 0 ∨ k % 4 = 1 ∨ k % 4 = 2 ∨ k % 4 = 3 := by omega
  rcases hr with h | h | h | h
  · exact ⟨360 * k, ⟨k / 4, 0, by norm_num, by unfold cycleTime; omega⟩,
      hk1, by omega⟩
  · exact ⟨360 * k, ⟨k / 4, 6, by norm_num, by unfold cycleTime; omega⟩,
      hk1, by omega⟩
  · exact ⟨360 * k, ⟨k / 4, 12, by norm_num, by unfold cycleTime; omega⟩,
      hk1, by omega⟩
  · exact ⟨360 * k, ⟨k / 4, 18, by norm_num, by unfold cycleTime; omega⟩,
      hk1, by omega⟩

/-- Concrete instance of `get_init_times_nowcast_correct`: the 6-hourly
STOFS/GFS-style schedule over the query from day-0 17:00 to day-1 17:00
yields a strictly ascending cycle list. -/
theorem get_init_times_nowcast_correct_witness :
    (get_init_times_nowcast [0, 6, 12, 18] 6 1020 2460).1.Sorted (· < ·) :=
  (get_init_times_nowcast_correct [0, 6, 12, 18] 6 1020 2460
    (by norm_num) (by norm_num) (by norm_num)
    (by decide) (by decide) sixHourlyCoverage).1

end Seanode
